import Mathlib

/-!
# A verification model of the `extensiondb` cincinnati upgrade-graph planner

This file gives a shallow embedding, in Lean, of the core of the
`examples/cincinnati` upgrade-graph planner of the `extensiondb` repository:
the version and lifecycle primitives (`lifecycle.go`), the graph construction
with its two-pass edge-weight assignment (`graph.go`), and the joint
platform/product upgrade planner (`update_plan.go`).

The repository carries two generations of the graph pipeline side by side:

* the current generation (namespace-free definitions below), in which
  `initializeEdgesTo` filters candidate edges only by version/minimum-version/
  major (graph.go:404-426), `assignEdgeWeights` assigns rank-based weights that
  de-prioritise worse lifecycle tiers (graph.go:437-465), and the planner is
  `PlanOpenShiftUpdate` / `platformNodeUpdatePathFrom` (update_plan.go:276-443);

* a legacy generation (namespace `V1` below), in which `initializeEdgesTo`
  additionally filters on lifecycle phase and on cross-minor edges into
  end-of-life streams (graph.go:164-195), `assignEdgeWeights` numbers each
  node's successors in reverse version order (graph.go:197-210), and platform
  validation permits `from == to` (update_plan.go:112-134).

Weights are `float64` in Go; the weighting scheme only ever adds the constant
`delta = 0.01` and previously produced weights, which the specification notes
is exact in double precision for realistic graph sizes, so weights are
modelled as exact rationals (`ℚ`).

Go `time.Time` values are modelled as integers (an instant on a total time
line); `Before`/`After` become `<`/`>`.
-/

namespace Cincinnati

/-- Go's `cmp.Compare` on a linearly ordered type, with values -1, 0, 1. -/
def intCmp {α : Type} [LinearOrder α] (x y : α) : ℤ :=
  if x < y then -1 else if x = y then 0 else 1

theorem intCmp_le_zero {α : Type} [LinearOrder α] {x y : α} :
    intCmp x y ≤ 0 ↔ x ≤ y := by
  unfold intCmp
  split_ifs with h1 h2
  · simp [le_of_lt h1]
  · simpa using le_of_eq h2
  · have : y < x := lt_of_le_of_ne (not_lt.mp h1) (Ne.symm h2)
    simp [not_le.mpr this]

theorem intCmp_eq_zero {α : Type} [LinearOrder α] {x y : α} :
    intCmp x y = 0 ↔ x = y := by
  unfold intCmp
  split_ifs with h1 h2
  · simp [ne_of_lt h1]
  · simp [h2]
  · have : y < x := lt_of_le_of_ne (not_lt.mp h1) (Ne.symm h2)
    simp [ne_of_gt this]

theorem intCmp_pos {α : Type} [LinearOrder α] {x y : α} :
    0 < intCmp x y ↔ y < x := by
  unfold intCmp
  split_ifs with h1 h2
  · simp [lt_asymm h1]
  · simpa using not_lt.mpr (le_of_eq h2)
  · have : y < x := lt_of_le_of_ne (not_lt.mp h1) (Ne.symm h2)
    simp [this]

theorem intCmp_neg {α : Type} [LinearOrder α] {x y : α} :
    intCmp x y < 0 ↔ x < y := by
  unfold intCmp
  split_ifs with h1 h2
  · simp [h1]
  · simpa using not_lt.mpr (le_of_eq h2.symm)
  · have : y < x := lt_of_le_of_ne (not_lt.mp h1) (Ne.symm h2)
    simp [not_lt.mpr (le_of_lt this)]

/-! ## A sort routine

Go's `slices.SortedFunc`/`slices.SortFunc` sort a slice in ascending order of
an integer comparison function (the order of elements that compare equal is
unspecified).  We model sorting with a straightforward insertion sort over a
boolean `le` predicate; for tie-free inputs this agrees with any correct
sorting routine. -/

/-- Insert `x` into `l` before the first element `y` with `le x y`. -/
def insertSorted {α : Type} (le : α → α → Bool) (x : α) : List α → List α
  | [] => [x]
  | y :: ys => if le x y then x :: y :: ys else y :: insertSorted le x ys

/-- Insertion sort by a boolean `le` predicate. -/
def sortByLe {α : Type} (le : α → α → Bool) : List α → List α
  | [] => []
  | x :: xs => insertSorted le x (sortByLe le xs)

theorem mem_insertSorted {α : Type} (le : α → α → Bool) (x : α) :
    ∀ (l : List α) (z : α), z ∈ insertSorted le x l ↔ z = x ∨ z ∈ l := by
  intro l
  induction l with
  | nil => intro z; simp [insertSorted]
  | cons y ys ih =>
    intro z
    by_cases h : le x y = true <;> simp [insertSorted, h, ih z] <;> tauto

theorem insertSorted_perm {α : Type} (le : α → α → Bool) (x : α) :
    ∀ l : List α, (insertSorted le x l).Perm (x :: l) := by
  intro l
  induction l with
  | nil => simp [insertSorted]
  | cons y ys ih =>
    by_cases h : le x y = true
    · simp [insertSorted, h]
    · simp only [insertSorted, h]
      exact List.Perm.trans (List.Perm.cons y ih) (List.Perm.swap x y ys)

theorem sortByLe_perm {α : Type} (le : α → α → Bool) :
    ∀ l : List α, (sortByLe le l).Perm l := by
  intro l
  induction l with
  | nil => simp [sortByLe]
  | cons x xs ih =>
    exact List.Perm.trans (insertSorted_perm le x _) (List.Perm.cons x ih)

/-- Any relation `R` that is implied by `le = true` (forwards) and by
`le = false` (backwards) and is transitive holds pairwise along the output of
the insertion sort. -/
theorem sortByLe_pairwise {α : Type} (le : α → α → Bool) (R : α → α → Prop)
    (h1 : ∀ a b, le a b = true → R a b) (h2 : ∀ a b, le a b = false → R b a)
    (htrans : ∀ a b c, R a b → R b c → R a c) :
    ∀ l : List α, (sortByLe le l).Pairwise R := by
  have hins : ∀ (x : α) (l : List α), l.Pairwise R →
      (insertSorted le x l).Pairwise R := by
    intro x l
    induction l with
    | nil => intro _; simp [insertSorted]
    | cons y ys ih =>
      intro hp
      rcases List.pairwise_cons.mp hp with ⟨hy, hys⟩
      by_cases h : le x y = true
      · simp only [insertSorted, h, if_pos]
        refine List.pairwise_cons.mpr ⟨?_, hp⟩
        intro z hz
        rcases List.mem_cons.mp hz with rfl | hz
        · exact h1 _ _ h
        · exact htrans _ _ _ (h1 _ _ h) (hy z hz)
      · simp only [insertSorted, h, if_neg, Bool.false_eq_true, not_false_iff]
        refine List.pairwise_cons.mpr ⟨?_, ih hys⟩
        intro z hz
        rcases (mem_insertSorted le x ys z).mp hz with rfl | hz
        · exact h2 _ _ (Bool.eq_false_iff.mpr (by simpa using h))
        · exact hy z hz
  intro l
  induction l with
  | nil => simp [sortByLe]
  | cons x xs ih => exact hins x _ ih

/-! ## Semantic versions (`blang/semver/v4`)

The repository compares node versions with the external `blang/semver`
library.  We embed that library's comparison contract: versions are compared
by `(major, minor, patch)` and then by the pre-release identifier list, where
a release (empty pre-release list) is greater than any pre-release, numeric
identifiers are lower than alphanumeric ones, and a longer identifier list
wins over a proper prefix.  Build metadata is ignored by comparison. -/

/-- One pre-release identifier: numeric, or alphanumeric. -/
inductive PRVersion : Type
  | num (n : ℕ)
  | alnum (s : String)
deriving DecidableEq

/-- Go string comparison (bytewise) restricted to the comparisons the claims
exercise; Lean's `compare` on `String` is lexicographic on characters, which
agrees with Go on ASCII strings. -/
def strCmp (a b : String) : ℤ :=
  match compare a b with
  | .lt => -1
  | .eq => 0
  | .gt => 1

/-- Comparison of single pre-release identifiers (`blang/semver`,
`PRVersion.Compare`): two numeric identifiers compare numerically, two
alphanumeric identifiers compare as strings, and a numeric identifier is
always lower than an alphanumeric one. -/
def PRVersion.compare : PRVersion → PRVersion → ℤ
  | .num a, .num b => intCmp a b
  | .num _, .alnum _ => -1
  | .alnum _, .num _ => 1
  | .alnum a, .alnum b => strCmp a b

/-- A semantic version.  `build` metadata is carried but ignored by
comparison, as in `blang/semver`. -/
structure Version : Type where
  major : ℕ
  minor : ℕ
  patch : ℕ
  pre : List PRVersion := []
  build : List String := []
deriving DecidableEq

/-- Lexicographic comparison of pre-release identifier lists: elementwise,
with a proper prefix comparing lower than the longer list. -/
def preListCmp : List PRVersion → List PRVersion → ℤ
  | [], [] => 0
  | [], _ :: _ => -1
  | _ :: _, [] => 1
  | a :: as, b :: bs =>
    let c := PRVersion.compare a b
    if c ≠ 0 then c else preListCmp as bs

/-- `Version.Compare` of `blang/semver`: numeric triple first, then
pre-release (absence of a pre-release list compares greater). -/
def Version.compare (v o : Version) : ℤ :=
  if v.major ≠ o.major then intCmp v.major o.major
  else if v.minor ≠ o.minor then intCmp v.minor o.minor
  else if v.patch ≠ o.patch then intCmp v.patch o.patch
  else
    match v.pre, o.pre with
    | [], [] => 0
    | [], _ :: _ => 1
    | _ :: _, [] => -1
    | a :: as, b :: bs => preListCmp (a :: as) (b :: bs)

/-- `Version.LT`. -/
def Version.LT (v o : Version) : Bool := Version.compare v o < 0

/-! ## `MajorMinor`

Modelled from the spec: the file declaring `MajorMinor` is not under `src/`
(only its uses are).  Per the specification it is a pair of non-negative
integers with lexicographic order, rendered as the string `"major.minor"`. -/

structure MajorMinor : Type where
  Major : ℕ
  Minor : ℕ
deriving DecidableEq

/-- Modelled from the spec: lexicographic comparison of `MajorMinor`. -/
def MajorMinor.Compare (a b : MajorMinor) : ℤ :=
  if a.Major ≠ b.Major then intCmp a.Major b.Major else intCmp a.Minor b.Minor

/-- Modelled from the spec: `MajorMinor.String` renders `"major.minor"`. -/
def MajorMinor.String (mm : MajorMinor) : String :=
  toString mm.Major ++ "." ++ toString mm.Minor

/-- `NewMajorMinorFromVersion` keeps the major and minor components. -/
def NewMajorMinorFromVersion (v : Version) : MajorMinor :=
  ⟨v.major, v.minor⟩

/-! ## Lifecycle phases (`lifecycle.go`)

`LifecyclePhase` is an `int`; we use `ℤ` with the constants of the current
`lifecycle.go`.  `math.MaxInt` on the 64-bit targets the repository builds for
is `2^63 - 1`. -/

/-- Go's `math.MaxInt` on a 64-bit target. -/
def goMaxInt : ℤ := 2 ^ 63 - 1

def LifecyclePhaseFullSupport : ℤ := 0
def LifecyclePhaseMaintenance : ℤ := 1
def LifecyclePhaseEndOfLife : ℤ := goMaxInt - 2
def LifecyclePhasePreGA : ℤ := goMaxInt - 1
def LifeCyclePhaseUnknown : ℤ := goMaxInt

/-- `LifecyclePhase.Compare`: returns a positive value when `l` is strictly
better (numerically smaller) than `other`. -/
def LifecyclePhase.Compare (l other : ℤ) : ℤ := intCmp other l

/-- `LifecycleExtensionPhase(i)` yields the i-th extension phase.  The source
panics for `i < 1` or `i ≥ EndOfLife - 1`; in-range arguments (the only ones
the repository produces) map to `i + 1`. -/
def LifecycleExtensionPhase (i : ℕ) : ℤ := (i : ℤ) + 1

/-! ## Lifecycle dates (`lifecycle.go`) -/

/-- `LifecycleDates`: calendar fields, with time instants as integers. -/
structure LifecycleDates : Type where
  FullSupport : ℤ
  Maintenance : ℤ
  Extensions : List ℤ := []
  EndOfLife : ℤ
deriving DecidableEq

/-- `ValidateOrder` walks `[fullSupport, maintenance, extensions…, eol]`
comparing each entry with the previous one (starting from the zero
`time.Time`, which our integer timeline places at `0`). -/
def LifecycleDates.ValidateOrder (l : LifecycleDates) : Option String :=
  let expectedOrder := [l.FullSupport, l.Maintenance] ++ l.Extensions ++ [l.EndOfLife]
  let rec walk (v : ℤ) : List ℤ → Option String
    | [] => none
    | d :: rest =>
      if d < v then
        some "invalid: dates out of order: expected order is Full Support, Maintenance, Extensions (in order), End of Life"
      else walk d rest
  walk 0 expectedOrder

/-- The extension-walking loop of `Phase`: Go's
`for i := 1; i < len(extensions); i++ { if asOf < extensions[i] { return LifecycleExtensionPhase(i) } }`
followed by `return LifecycleExtensionPhase(len(extensions))`, expressed as a
walk along the tail of the extension list carrying the loop index. -/
def extWalk (asOf : ℤ) : ℕ → List ℤ → ℤ
  | i, [] => LifecycleExtensionPhase i
  | i, d :: rest => if asOf < d then LifecycleExtensionPhase i else extWalk asOf (i + 1) rest

/-- `LifecycleDates.Phase` (lifecycle.go:69-88). -/
def LifecycleDates.Phase (l : LifecycleDates) (asOf : ℤ) : ℤ :=
  if asOf < l.FullSupport then LifecyclePhasePreGA
  else if asOf < l.Maintenance then LifecyclePhaseFullSupport
  else if l.EndOfLife < asOf then LifecyclePhaseEndOfLife
  else
    match l.Extensions with
    | [] => LifecyclePhaseMaintenance
    | e0 :: rest =>
      if asOf < e0 then LifecyclePhaseMaintenance
      else extWalk asOf 1 rest

/-! ## Platform-version sets

`k8s.io/apimachinery`'s `sets.Set[MajorMinor]` is used for the platform
version sets; we model a set by its element list, with the set operations the
source uses (`Has`, `IsSuperset`, `Union`, `New`). -/

/-- `sets.Set.Has`. -/
def setHas (s : List MajorMinor) (x : MajorMinor) : Bool := s.contains x

/-- `sets.Set.IsSuperset`: every element of `t` is in `s`. -/
def setIsSuperset (s t : List MajorMinor) : Bool := t.all (fun x => s.contains x)

/-- `sets.Set.Union`. -/
def setUnion (s t : List MajorMinor) : List MajorMinor := s ++ t

/-! ## Nodes (`node.go`)

The `Node` revision under `src/` carries name, version, optional release,
release timestamp, image reference, and the graph-binding fields
`LifecyclePhase` and `SupportedPlatformVersions`.  The planner
(`update_plan.go`) additionally reads `RequiresUpdatePlatformVersions`; the
`Node` revision declaring that field is not under `src/`, so it is modelled
from the spec ("Optionally a second set `requiresUpdatePlatformVersions` may
be carried for artifacts that are merely functional"). -/

structure Node : Type where
  Name : String
  Version : Version
  Release : Option String := none
  ReleaseDate : ℤ
  ImageReference : String
  LifecyclePhase : ℤ := 0
  SupportedPlatformVersions : List MajorMinor := []
  RequiresUpdatePlatformVersions : List MajorMinor := []
deriving DecidableEq

/-- `Node.Compare`: by version, ties broken by package name
(src/unnamed/part_000:475-480; the release is not compared). -/
def Node.Compare (n other : Node) : ℤ :=
  let v := Version.compare n.Version other.Version
  if v ≠ 0 then v else strCmp n.Name other.Name

/-- The identity key of a node (Go derives the stable integer node ID by
hashing `"<package>.v<version>[_<release>]"`, which is injective on these
triples up to hash collisions). -/
def nodeKey (n : Node) : String × Version × Option String :=
  (n.Name, n.Version, n.Release)

/-! ## Version streams (`pkg/types`/template) -/

structure VersionStream : Type where
  Version : MajorMinor
  MinimumUpdateVersion : Cincinnati.Version
  LifecycleDates : Cincinnati.LifecycleDates
  SupportedPlatformVersions : List MajorMinor := []
deriving DecidableEq

/-- `GraphConfig` (graph.go:236-241). -/
structure GraphConfig : Type where
  Streams : List VersionStream
  Nodes : List Node
  AsOf : ℤ
  IncludePreGA : Bool
deriving DecidableEq

/-- `util.KeySlice` builds a map from stream `MajorMinor` to stream; on
duplicate keys the later entry wins, so lookup finds the last matching
stream. -/
def lookupStream (streams : List VersionStream) (mm : MajorMinor) : Option VersionStream :=
  streams.reverse.find? (fun s => s.Version = mm)

/-! ## Graph construction (`graph.go`)

A `Graph` is modelled by its node list and its weighted edge list.  The
underlying gonum `simple.WeightedDirectedGraph` stores nodes in a hash map
whose iteration order is unspecified; no claim settled here depends on that
order, and we keep nodes in release-date-sorted order. -/

structure Graph : Type where
  nodes : List Node
  wedges : List (Node × Node × ℚ)
deriving DecidableEq

/-- The filter of the current `initializeEdgesTo` (graph.go:404-426): skip
edges to a lower `(version, name)`, from below the minimum update version of
the target's stream, or across major versions. -/
def edgeAdmitted (minimumUpdateVersion : Version) (fr tn : Node) : Bool :=
  ¬ Node.Compare fr tn > 0 ∧
  ¬ fr.Version.LT minimumUpdateVersion ∧
  fr.Version.major = tn.Version.major

/-- The current `initializeEdgesTo` (graph.go:404-426): one edge `from → to`
for every admitted `from` (each gets a placeholder weight 1, replaced by
`assignEdgeWeights`; we record just the pair here). -/
def initEdgesTo (adm : Version → Node → Node → Bool)
    (froms : List Node) (tn : Node) (minimumUpdateVersion : Version) : List (Node × Node) :=
  (froms.filter (fun fr => adm minimumUpdateVersion fr tn)).map (fun fr => (fr, tn))

/-- The construction-warning message for a node whose `major.minor` has no
stream (graph.go:333). -/
def unknownStreamMsg (n : Node) : String :=
  "node with reference " ++ n.ImageReference ++ " has major.minor version " ++
    (NewMajorMinorFromVersion n.Version).String ++ ", but that version is not in an available stream"

/-- One step of `buildEdges`'s node loop (graph.go:329-346), processing the
release-date-sorted node list.  For each node: look up its stream (recording
an error and leaving the node unbound if missing), bind the platform set and
lifecycle phase, skip Pre-GA nodes unless `includePreGA`, and otherwise add
the admitted edges from all earlier bound nodes and append the node to
`froms`.  Returns the collected error messages, the processed node values,
and the edge pairs. -/
def buildLoop (adm : Version → Node → Node → Bool)
    (streams : List VersionStream) (asOf : ℤ) (includePreGA : Bool) :
    List Node → List Node → List String × List Node × List (Node × Node)
  | _, [] => ([], [], [])
  | froms, tn :: rest =>
    match lookupStream streams (NewMajorMinorFromVersion tn.Version) with
    | none =>
      let r := buildLoop adm streams asOf includePreGA froms rest
      (unknownStreamMsg tn :: r.1, tn :: r.2.1, r.2.2)
    | some stream =>
      let tn' : Node :=
        { tn with
          SupportedPlatformVersions := stream.SupportedPlatformVersions,
          LifecyclePhase := stream.LifecycleDates.Phase asOf }
      if ¬ includePreGA ∧ tn'.LifecyclePhase = LifecyclePhasePreGA then
        let r := buildLoop adm streams asOf includePreGA froms rest
        (r.1, tn' :: r.2.1, r.2.2)
      else
        let r := buildLoop adm streams asOf includePreGA (froms ++ [tn']) rest
        (r.1, tn' :: r.2.1,
          initEdgesTo adm froms tn' stream.MinimumUpdateVersion ++ r.2.2)

/-- The release-date sort of `buildEdges` (graph.go:325). -/
def sortByReleaseDate (nodes : List Node) : List Node :=
  sortByLe (fun a b => decide (a.ReleaseDate ≤ b.ReleaseDate)) nodes

/-- The best-first node comparison used by the current `assignEdgeWeights`
(graph.go:438-443): best (numerically smallest) lifecycle phase first, and
within a phase highest `(version, name)` first. -/
def bestNodeCmp (a b : Node) : ℤ :=
  let v := LifecyclePhase.Compare b.LifecyclePhase a.LifecyclePhase
  if v ≠ 0 then v else Node.Compare b a

/-- Nodes sorted best first (graph.go:438-443). -/
def bestNodes (nodes : List Node) : List Node :=
  sortByLe (fun a b => decide (bestNodeCmp a b ≤ 0)) nodes

/-- The `delta` constant of `assignEdgeWeights` (graph.go:445). -/
def delta : ℚ := 1 / 100

/-- The rank-accumulation walk of the current `assignEdgeWeights`
(graph.go:445-464): walk the best-first node list carrying the phase of the
previous node, the running `rank`, and `nextLifecyclePhaseRank`; on a phase
change the rank restarts from the accumulated sum of the finished tier's
ranks.  Returns each node paired with its rank (the weight assigned to every
edge into it). -/
def assignRanks : ℤ → ℚ → ℚ → List Node → List (Node × ℚ)
  | _, _, _, [] => []
  | curLifecyclePhase, rank, nextLifecyclePhaseRank, tn :: rest =>
    if curLifecyclePhase ≠ tn.LifecyclePhase then
      let r := nextLifecyclePhaseRank + delta
      (tn, r) :: assignRanks tn.LifecyclePhase r r rest
    else
      let r := rank + delta
      (tn, r) :: assignRanks curLifecyclePhase r (nextLifecyclePhaseRank + r) rest

/-- Look up a node's rank. -/
def rankOf (ranks : List (Node × ℚ)) (n : Node) : ℚ :=
  match ranks.find? (fun e => e.1 = n) with
  | some e => e.2
  | none => 0

/-- The current `assignEdgeWeights` (graph.go:437-465): every edge into `to`
is re-inserted with `to`'s rank as its weight. -/
def assignEdgeWeights (nodes : List Node) (edges : List (Node × Node)) :
    List (Node × Node × ℚ) :=
  let ranks := assignRanks LifeCyclePhaseUnknown 0 0 (bestNodes nodes)
  edges.map (fun e => (e.1, e.2, rankOf ranks e.2))

/-- The current `NewGraph`/`buildEdges` (graph.go:243-262, 322-353): sort the
nodes by release date, bind and wire them, fail with the joined per-node
errors if any stream lookup failed, and otherwise run the weight
assignment. -/
def NewGraph (cfg : GraphConfig) : Except (List String) Graph :=
  let r := buildLoop edgeAdmitted cfg.Streams cfg.AsOf cfg.IncludePreGA []
    (sortByReleaseDate cfg.Nodes)
  if r.1 ≠ [] then .error r.1
  else .ok { nodes := r.2.1, wedges := assignEdgeWeights r.2.1 r.2.2 }

/-! ## Query surface (`graph.go`) -/

/-- `NodePredicate`. -/
def NodePredicate : Type := Graph → Node → Bool

/-- `AllNodes`. -/
def AllNodes : NodePredicate := fun _ _ => true

/-- `PackageNodes`. -/
def PackageNodes (pkgName : String) : NodePredicate := fun _ node => node.Name = pkgName

/-- `AndNodes`. -/
def AndNodes (p q : NodePredicate) : NodePredicate := fun g n => p g n ∧ q g n

/-- Whether `u → v` is an edge of the graph. -/
def edgeMem (g : Graph) (u v : Node) : Bool :=
  g.wedges.any (fun e => e.1 = u ∧ e.2.1 = v)

/-- `From(n)`: out-neighbors. -/
def successors (g : Graph) (u : Node) : List Node :=
  (g.wedges.filter (fun e => e.1 = u)).map (fun e => e.2.1)

/-- `NodesMatching` (graph.go:298-309) filters the node enumeration by a
predicate. -/
def NodesMatching (g : Graph) (match_ : NodePredicate) : List Node :=
  g.nodes.filter (fun n => match_ g n)

/-- `isHead` (graph.go:315-320): no outgoing edge. -/
def isHead (g : Graph) (n : Node) : Bool := successors g n = []

/-- `Heads` (graph.go:243-262): the set of nodes with no outgoing edge,
recorded at construction. -/
def Heads (g : Graph) : List Node := NodesMatching g (fun g n => isHead g n)

/-- `EdgeWeight`-style lookup of an edge's weight (absent edges have weight
`+Inf` in Go; the claims only read weights of present edges, and we return
`0` for absent ones). -/
def weightOf (g : Graph) (u v : Node) : ℚ :=
  match g.wedges.find? (fun e => e.1 = u ∧ e.2.1 = v) with
  | some e => e.2.2
  | none => 0

/-- The total weight of a walk along graph edges. -/
def pathWeight (g : Graph) : List Node → ℚ
  | u :: v :: rest => weightOf g u v + pathWeight g (v :: rest)
  | _ => 0

/-- A path of the graph: consecutive elements are edges. -/
def isPath (g : Graph) (p : List Node) : Prop :=
  List.Chain' (fun u v => edgeMem g u v = true) p

/-! ## The legacy pipeline (`V1`)

The legacy `initializeEdgesTo` (graph.go:164-195) additionally prunes edges
into a strictly worse lifecycle phase and cross-minor edges into end-of-life
streams; the legacy `assignEdgeWeights` (graph.go:197-210) numbers each
node's successors `1, 2, …` in reverse `(version, name)` order. -/

/-- The furthest permitted target of a platform update (Go's `maxTo`,
update_plan.go:124-128 and update_plan.go:305-309): two minors ahead from an
even minor, one from an odd minor. -/
def furthestTarget (fr : MajorMinor) : MajorMinor :=
  ⟨fr.Major, fr.Minor + (if fr.Minor % 2 = 0 then 2 else 1)⟩

namespace V1

/-- The legacy lifecycle constants (graph.go:477-482): `iota - 1` places
Pre-GA at `-1`, **below** Full Support, and End of Life is `math.MaxInt`.
The extension phases `i + 1` coincide with the current revision's. -/
def LifecyclePhasePreGA : ℤ := -1

def LifecyclePhaseFullSupport : ℤ := 0

def LifecyclePhaseMaintenance : ℤ := 1

def LifecyclePhaseEndOfLife : ℤ := goMaxInt

/-- The legacy `LifecycleDates.Phase` (graph.go:521-539): the same case
analysis as the current revision's, returning the legacy constants (the
extension walk is shared, since `LifecycleExtensionPhase` agrees). -/
def Phase (l : LifecycleDates) (asOf : ℤ) : ℤ :=
  if asOf < l.FullSupport then V1.LifecyclePhasePreGA
  else if asOf < l.Maintenance then V1.LifecyclePhaseFullSupport
  else if l.EndOfLife < asOf then V1.LifecyclePhaseEndOfLife
  else
    match l.Extensions with
    | [] => V1.LifecyclePhaseMaintenance
    | e0 :: rest =>
      if asOf < e0 then V1.LifecyclePhaseMaintenance
      else extWalk asOf 1 rest

/-- The legacy edge filter (graph.go:164-195), with the legacy End-of-Life
constant. -/
def edgeAdmitted (minimumUpdateVersion : Version) (fr tn : Node) : Bool :=
  ¬ Node.Compare fr tn > 0 ∧
  ¬ fr.Version.LT minimumUpdateVersion ∧
  fr.Version.major = tn.Version.major ∧
  ¬ fr.LifecyclePhase < tn.LifecyclePhase ∧
  ¬ (fr.Version.minor ≠ tn.Version.minor ∧ tn.LifecyclePhase = V1.LifecyclePhaseEndOfLife)

/-- The legacy `buildEdges` node loop (graph.go:81-113): the same walk as
the current one, but binding each node's lifecycle phase with the legacy
`Phase` and testing the Pre-GA skip against the legacy constant. -/
def buildLoop (adm : Version → Node → Node → Bool)
    (streams : List VersionStream) (asOf : ℤ) (includePreGA : Bool) :
    List Node → List Node → List String × List Node × List (Node × Node)
  | _, [] => ([], [], [])
  | froms, tn :: rest =>
    match lookupStream streams (NewMajorMinorFromVersion tn.Version) with
    | none =>
      let r := buildLoop adm streams asOf includePreGA froms rest
      (unknownStreamMsg tn :: r.1, tn :: r.2.1, r.2.2)
    | some stream =>
      let tn' : Node :=
        { tn with
          SupportedPlatformVersions := stream.SupportedPlatformVersions,
          LifecyclePhase := V1.Phase stream.LifecycleDates asOf }
      if ¬ includePreGA ∧ tn'.LifecyclePhase = V1.LifecyclePhasePreGA then
        let r := buildLoop adm streams asOf includePreGA froms rest
        (r.1, tn' :: r.2.1, r.2.2)
      else
        let r := buildLoop adm streams asOf includePreGA (froms ++ [tn']) rest
        (r.1, tn' :: r.2.1,
          initEdgesTo adm froms tn' stream.MinimumUpdateVersion ++ r.2.2)

/-- The legacy `assignEdgeWeights` (graph.go:197-210): per node, sort the
successors in reverse `(version, name)` order and weight the i-th edge
`i + 1`. -/
def assignEdgeWeights (nodes : List Node) (edges : List (Node × Node)) :
    List (Node × Node × ℚ) :=
  nodes.flatMap (fun fr =>
    let tos := sortByLe (fun a b => decide (Node.Compare b a ≤ 0))
      ((edges.filter (fun e => e.1 = fr)).map (fun e => e.2))
    tos.enum.map (fun ti => (fr, ti.2, ((ti.1 : ℚ) + 1))))

/-- The legacy `NewGraph`/`buildEdges` (graph.go:33-113): identical in shape
to the current one, with the legacy phase binding, edge filter, and weight
pass. -/
def NewGraph (cfg : GraphConfig) : Except (List String) Graph :=
  let r := V1.buildLoop V1.edgeAdmitted cfg.Streams cfg.AsOf cfg.IncludePreGA []
    (sortByReleaseDate cfg.Nodes)
  if r.1 ≠ [] then .error r.1
  else .ok { nodes := r.2.1, wedges := V1.assignEdgeWeights r.2.1 r.2.2 }

/-- The legacy `validateOpenShiftUpdate` (update_plan.go:112-134): equal
platforms are allowed; downgrades, cross-major updates directed upward, and
targets past the even/odd furthest minor are errors. -/
def validateOpenShiftUpdate (fr : MajorMinor) (tp : MajorMinor) : Option String :=
  if fr.Compare tp = 0 then none
  else if fr.Compare tp > 0 then
    some ("downgrading from " ++ fr.String ++ " to " ++ tp.String ++ " is not supported")
  else if fr.Major ≠ tp.Major then
    some ("updating from major version " ++ toString fr.Major ++ " to major version " ++
      toString tp.Major ++ " is not supported")
  else if tp.Compare (furthestTarget fr) > 0 then
    some ("furthest supported update from " ++ fr.String ++ " is to " ++ (furthestTarget fr).String)
  else none

end V1

/-! ## The platform upgrade planner (`update_plan.go`, current generation) -/

/-- The current `validateOpenShiftUpdate` (update_plan.go:293-315): unlike
the legacy variant, equal platforms are an error. -/
def validateOpenShiftUpdate (fr : MajorMinor) (tp : MajorMinor) : Option String :=
  if fr.Compare tp = 0 then
    some ("platform update requires different from version (" ++ fr.String ++
      ") and to version (" ++ tp.String ++ ")")
  else if fr.Compare tp > 0 then
    some ("downgrading from " ++ fr.String ++ " to " ++ tp.String ++ " is not supported")
  else if fr.Major ≠ tp.Major then
    some ("updating from major version " ++ toString fr.Major ++ " to major version " ++
      toString tp.Major ++ " is not supported")
  else if tp.Compare (furthestTarget fr) > 0 then
    some ("furthest supported update from " ++ fr.String ++ " is to " ++ (furthestTarget fr).String)
  else none

/-- `supportedOnPlatforms` (update_plan.go:433-437). -/
def supportedOnPlatforms (platforms : List MajorMinor) : NodePredicate :=
  fun _ n => setIsSuperset n.SupportedPlatformVersions platforms

/-- `functionalOnPlatforms` (update_plan.go:438-443): supported or
requires-update on every listed platform. -/
def functionalOnPlatforms (platforms : List MajorMinor) : NodePredicate :=
  fun _ n =>
    setIsSuperset (setUnion n.SupportedPlatformVersions n.RequiresUpdatePlatformVersions) platforms

/-! ### Shortest paths

The graph's all-pairs shortest paths are produced by gonum's
`path.DijkstraAllPaths`; the graphs the construction produces are finite DAGs
(edges only point from earlier-released to later-released nodes), so every
walk from a node visits pairwise distinct nodes and has length at most the
node count.  `Paths().Between(u, v)` is modelled as a minimum-weight element
of the walks from `u` ending at `v` (`none` when `v` is unreachable,
corresponding to gonum's `(nil, +Inf)`). -/

/-- All walks of at most `fuel` edges starting at `u`. -/
def pathsFrom (g : Graph) : ℕ → Node → List (List Node)
  | 0, u => [[u]]
  | fuel + 1, u =>
    [u] :: (successors g u).flatMap (fun v => (pathsFrom g fuel v).map (fun p => u :: p))

/-- `Paths().Between`: a minimum-weight path from `u` to `v` together with its
weight, or `none` if there is none. -/
def between (g : Graph) (u v : Node) : Option (List Node × ℚ) :=
  let cands := (pathsFrom g g.nodes.length u).filter (fun p => p.getLast? = some v)
  (cands.argmin (fun p => pathWeight g p)).map (fun p => (p, pathWeight g p))

/-- `PlatformNodeUpdate` (update_plan.go:269-274). -/
structure PlatformNodeUpdate : Type where
  From : Node
  Before : List Node := []
  After : List Node := []
  Error : Option String := none
deriving DecidableEq

/-- `PlatformUpdate` (update_plan.go:206-211). -/
structure PlatformUpdate : Type where
  Name : String
  From : MajorMinor
  To : MajorMinor
  NodeUpdates : List PlatformNodeUpdate
deriving DecidableEq

/-- The candidate update paths of `platformNodeUpdatePathFrom`
(update_plan.go:338-360): shortest paths from `fr` to every same-package node
supported on the to-platform, discarding unreachable targets, sorted by
weight and then by path length. -/
def updatePaths (g : Graph) (fr : Node) (toPlatformSet : List MajorMinor) :
    List (List Node × ℚ) :=
  let raw := (NodesMatching g (AndNodes (PackageNodes fr.Name)
      (supportedOnPlatforms toPlatformSet))).filterMap (fun tn => between g fr tn)
  sortByLe (fun a b => decide (a.2 < b.2 ∨ (a.2 = b.2 ∧ a.1.length ≤ b.1.length))) raw

/-- The candidate loop of `platformNodeUpdatePathFrom`
(update_plan.go:374-424).  Go indexes `pnu.Before[len(pnu.Before)-1]`, which
panics when the pre-update walk accepted no node; the panic is modelled as
the `none` result. -/
def tryUpdatePaths (g : Graph) (fr : Node)
    (fromPlatformSet traversedPlatformsSet toPlatformSet : List MajorMinor) :
    List (List Node × ℚ) → Option PlatformNodeUpdate
  | [] =>
    some { From := fr,
           Error := some "No update paths from this version coincide with the support along the platform update path" }
  | p :: rest =>
    let before := p.1.takeWhile (fun n => functionalOnPlatforms fromPlatformSet g n)
    match before.getLast? with
    | none => none
    | some spanNode =>
      if ¬ functionalOnPlatforms traversedPlatformsSet g spanNode then
        tryUpdatePaths g fr fromPlatformSet traversedPlatformsSet toPlatformSet rest
      else if before.length = p.1.length then
        some { From := fr, Before := before }
      else
        let after := (if before.length ≠ 0 then [spanNode] else []) ++
          (p.1.drop before.length).takeWhile (fun n => functionalOnPlatforms toPlatformSet g n)
        if before.length + after.length - 1 ≠ p.1.length then
          tryUpdatePaths g fr fromPlatformSet traversedPlatformsSet toPlatformSet rest
        else
          some { From := fr, Before := before, After := after }

/-- `platformNodeUpdatePathFrom` (update_plan.go:317-431).  The `none` result
models the Go panics (indexing `traversedPlatforms[0]` of an empty slice, or
`pnu.Before[len(pnu.Before)-1]` of an empty pre-update path). -/
def platformNodeUpdatePathFrom (g : Graph) (fr : Node)
    (traversedPlatforms : List MajorMinor) : Option PlatformNodeUpdate :=
  match traversedPlatforms with
  | [] => none
  | p0 :: restPlatforms =>
    if ¬ setHas fr.SupportedPlatformVersions p0 then
      some { From := fr, Error := some "This version is not supported on the current platform version" }
    else
      let toPlatform := (p0 :: restPlatforms).getLast (by simp)
      tryUpdatePaths g fr [p0] (p0 :: restPlatforms) [toPlatform]
        (updatePaths g fr [toPlatform])

/-- The traversed-platform enumeration of `PlanOpenShiftUpdate`
(update_plan.go:281-284): `for cur := fromPlatform; cur.Compare(toPlatform) <= 0; cur.Minor++`.
The loop terminates only because validation has already forced
`fromPlatform.Major = toPlatform.Major` and `fromPlatform < toPlatform`; under
that precondition it enumerates exactly the minors from `fromPlatform.Minor`
to `toPlatform.Minor` inclusive. -/
def traversedRange (fromPlatform toPlatform : MajorMinor) : List MajorMinor :=
  (List.range' fromPlatform.Minor (toPlatform.Minor + 1 - fromPlatform.Minor)).map
    (fun m => ⟨fromPlatform.Major, m⟩)

/-- A failure of `PlanOpenShiftUpdate`: a validation error (returned as
`(nil, err)` in Go) or a runtime panic inside per-node planning. -/
inductive PlanFailure : Type
  | validation (msg : String)
  | indexOutOfRange
deriving DecidableEq

/-- The per-node loop of `PlanOpenShiftUpdate` (update_plan.go:286-289),
propagating a panic from any node. -/
def planNodeUpdates (g : Graph) (traversedPlatforms : List MajorMinor) :
    List Node → Option (List PlatformNodeUpdate)
  | [] => some []
  | fr :: rest =>
    match platformNodeUpdatePathFrom g fr traversedPlatforms,
          planNodeUpdates g traversedPlatforms rest with
    | some pnu, some pnus => some (pnu :: pnus)
    | _, _ => none

/-- `PlanOpenShiftUpdate` (update_plan.go:276-291). -/
def PlanOpenShiftUpdate (g : Graph) (froms : List Node)
    (fromPlatform toPlatform : MajorMinor) : Except PlanFailure PlatformUpdate :=
  match validateOpenShiftUpdate fromPlatform toPlatform with
  | some e => .error (.validation e)
  | none =>
    match planNodeUpdates g (traversedRange fromPlatform toPlatform) froms with
    | none => .error .indexOutOfRange
    | some pnus =>
      .ok { Name := "OpenShift", From := fromPlatform, To := toPlatform, NodeUpdates := pnus }

/-! ## Lifecycle phase computation (claim C8) -/

theorem extWalk_all_le (asOf : ℤ) :
    ∀ (l : List ℤ) (i : ℕ), (∀ d ∈ l, d ≤ asOf) →
      extWalk asOf i l = LifecycleExtensionPhase (i + l.length) := by
  intro l
  induction l with
  | nil => intro i _; simp [extWalk]
  | cons d rest ih =>
    intro i hall
    have hd : d ≤ asOf := hall d (List.mem_cons_self d rest)
    have : ¬ asOf < d := not_lt.mpr hd
    simp only [extWalk, this, if_false]
    rw [ih (i + 1) (fun e he => hall e (List.mem_cons_of_mem d he))]
    congr 1
    simp
    omega

theorem sorted_le_getLast :
    ∀ (l : List ℤ), List.Sorted (· ≤ ·) l → ∀ eN, l.getLast? = some eN → ∀ e ∈ l, e ≤ eN := by
  intro l
  induction l with
  | nil => intro _ eN h; simp at h
  | cons d rest ih =>
    intro hs eN hlast e he
    rcases List.sorted_cons.mp hs with ⟨hd, hrest⟩
    cases hr : rest with
    | nil =>
      subst hr
      simp at hlast he
      subst hlast he
      exact le_refl _
    | cons d1 rest1 =>
      have hlast' : rest.getLast? = some eN := by
        rw [hr] at hlast ⊢
        simpa [List.getLast?_cons_cons] using hlast
      have heN : eN ∈ rest := List.mem_of_mem_getLast? (by simp [hlast'])
      rcases List.mem_cons.mp he with rfl | he'
      · exact hd eN heN
      · exact ih hrest eN hlast' e he'

/-- For a sorted list, earlier entries are at most later entries. -/
theorem sorted_getD_le (l : List ℤ) (hs : List.Sorted (· ≤ ·) l)
    (i j : ℕ) (hj : j < l.length) (hij : i ≤ j) : l.getD i 0 ≤ l.getD j 0 := by
  have hi : i < l.length := lt_of_le_of_lt hij hj
  rw [List.getD_eq_getElem l 0 hi, List.getD_eq_getElem l 0 hj]
  rcases Nat.eq_or_lt_of_le hij with hEq | hLt
  · subst hEq; exact le_refl _
  · exact List.pairwise_iff_get.mp hs ⟨i, hi⟩ ⟨j, hj⟩ hLt

theorem extWalk_found (asOf : ℤ) :
    ∀ (l : List ℤ) (i j : ℕ), j < l.length →
      (∀ m, m < j → l.getD m 0 ≤ asOf) →
      asOf < l.getD j 0 →
      extWalk asOf i l = LifecycleExtensionPhase (i + j) := by
  intro l
  induction l with
  | nil => intro i j hj; simp at hj
  | cons d rest ih =>
    intro i j hj hbefore hfound
    cases j with
    | zero =>
      have : asOf < d := by simpa using hfound
      simp [extWalk, this]
    | succ j' =>
      have hd : d ≤ asOf := by simpa using hbefore 0 (Nat.succ_pos j')
      have hnd : ¬ asOf < d := not_lt.mpr hd
      simp only [extWalk, hnd, if_false]
      have hj' : j' < rest.length := by simpa using Nat.lt_of_succ_lt_succ hj
      rw [ih (i + 1) j' hj'
        (fun m hm => by simpa using hbefore (m + 1) (Nat.succ_lt_succ hm))
        (by simpa using hfound)]
      congr 1
      omega

/-- C8.  For lifecycle dates whose sequence
`[fullSupport, maintenance, extensions…, eol]` is non-decreasing,
`Phase(asOf)` returns Pre-GA when `asOf < fullSupport`; FullSupport when
`fullSupport ≤ asOf < maintenance`; EndOfLife when `asOf > eol`; otherwise
Maintenance when `extensions` is empty or `asOf < extensions[0]`; otherwise
Extension-k when `extensions[k-1] ≤ asOf < extensions[k]`, and Extension-N
when `asOf ≥ extensions[N-1]`. -/
theorem C8_lifecycle_phase (l : LifecycleDates) (asOf : ℤ)
    (hord : List.Sorted (· ≤ ·) ([l.FullSupport, l.Maintenance] ++ l.Extensions ++ [l.EndOfLife])) :
    (asOf < l.FullSupport → l.Phase asOf = LifecyclePhasePreGA) ∧
    (l.FullSupport ≤ asOf → asOf < l.Maintenance → l.Phase asOf = LifecyclePhaseFullSupport) ∧
    (l.EndOfLife < asOf → l.Phase asOf = LifecyclePhaseEndOfLife) ∧
    (l.Maintenance ≤ asOf → asOf ≤ l.EndOfLife →
      (l.Extensions = [] ∨ ∃ e0, l.Extensions.head? = some e0 ∧ asOf < e0) →
      l.Phase asOf = LifecyclePhaseMaintenance) ∧
    (∀ (k : ℕ), k < l.Extensions.length → l.Maintenance ≤ asOf → asOf ≤ l.EndOfLife →
      1 ≤ k → l.Extensions.getD (k - 1) 0 ≤ asOf → asOf < l.Extensions.getD k 0 →
      l.Phase asOf = LifecycleExtensionPhase k) ∧
    (∀ eN, l.Maintenance ≤ asOf → asOf ≤ l.EndOfLife →
      l.Extensions.getLast? = some eN → eN ≤ asOf →
      l.Phase asOf = LifecycleExtensionPhase l.Extensions.length) := by
  have hord1 := List.sorted_cons.mp hord
  have hord2 := List.sorted_cons.mp hord1.2
  have hfm : l.FullSupport ≤ l.Maintenance := hord1.1 l.Maintenance (by simp)
  have hmeol : l.Maintenance ≤ l.EndOfLife := hord2.1 l.EndOfLife (by simp)
  have hsub : List.Sublist l.Extensions
      ([l.FullSupport, l.Maintenance] ++ l.Extensions ++ [l.EndOfLife]) :=
    List.Sublist.trans (List.sublist_append_right [l.FullSupport, l.Maintenance] l.Extensions)
      (List.sublist_append_left _ [l.EndOfLife])
  have hextSorted : List.Sorted (· ≤ ·) l.Extensions := List.Pairwise.sublist hsub hord
  refine ⟨?_, ?_, ?_, ?_, ?_, ?_⟩
  · intro h
    simp [LifecycleDates.Phase, h]
  · intro h1 h2
    simp [LifecycleDates.Phase, not_lt.mpr h1, h2]
  · intro h
    have h1 : ¬ asOf < l.FullSupport :=
      not_lt.mpr (le_trans (le_trans hfm hmeol) (le_of_lt h))
    have h2 : ¬ asOf < l.Maintenance := not_lt.mpr (le_trans hmeol (le_of_lt h))
    simp [LifecycleDates.Phase, h1, h2, h]
  · intro h1 h2 h3
    have hfs : ¬ asOf < l.FullSupport := not_lt.mpr (le_trans hfm h1)
    have hm : ¬ asOf < l.Maintenance := not_lt.mpr h1
    have heol : ¬ l.EndOfLife < asOf := not_lt.mpr h2
    rcases h3 with h3 | ⟨e0, he0, hlt⟩
    · simp [LifecycleDates.Phase, hfs, hm, heol, h3]
    · rcases hl : l.Extensions with _ | ⟨d0, rest⟩
      · simp [LifecycleDates.Phase, hfs, hm, heol, hl]
      · rw [hl] at he0
        simp only [List.head?_cons, Option.some.injEq] at he0
        subst he0
        simp [LifecycleDates.Phase, hfs, hm, heol, hl, hlt]
  · intro k hk h1 h2 hk1 hlow hhigh
    have hfs : ¬ asOf < l.FullSupport := not_lt.mpr (le_trans hfm h1)
    have hm : ¬ asOf < l.Maintenance := not_lt.mpr h1
    have heol : ¬ l.EndOfLife < asOf := not_lt.mpr h2
    have hd0le : l.Extensions.getD 0 0 ≤ asOf :=
      le_trans (sorted_getD_le l.Extensions hextSorted 0 (k - 1) (by omega) (Nat.zero_le _)) hlow
    rcases hl : l.Extensions with _ | ⟨d0, rest⟩
    · rw [hl] at hk; simp at hk
    · rw [hl] at hd0le hlow hhigh hk hextSorted
      have hd0 : ¬ asOf < d0 := not_lt.mpr (by simpa using hd0le)
      have hkrest : k - 1 < rest.length := by simp at hk; omega
      have hwalk : extWalk asOf 1 rest = LifecycleExtensionPhase (1 + (k - 1)) := by
        apply extWalk_found asOf rest 1 (k - 1) hkrest
        · intro m hm'
          have hge : rest.getD m 0 = (d0 :: rest).getD (m + 1) 0 := by simp
          rw [hge]
          refine le_trans (sorted_getD_le (d0 :: rest) hextSorted (m + 1) (k - 1) ?_ ?_) hlow
          · simpa using Nat.lt_of_lt_of_le hkrest (Nat.le_refl _) |>.trans_le (by simp)
          · omega
        · have hge : rest.getD (k - 1) 0 = (d0 :: rest).getD k 0 := by
            have : k = (k - 1) + 1 := by omega
            rw [this]
            simp
          rw [hge]
          exact hhigh
      have hone : (1 + (k - 1)) = k := by omega
      rw [hone] at hwalk
      simp [LifecycleDates.Phase, hfs, hm, heol, hl, hd0, hwalk]
  · intro eN h1 h2 hlast hle
    have hfs : ¬ asOf < l.FullSupport := not_lt.mpr (le_trans hfm h1)
    have hm : ¬ asOf < l.Maintenance := not_lt.mpr h1
    have heol : ¬ l.EndOfLife < asOf := not_lt.mpr h2
    have hall : ∀ e ∈ l.Extensions, e ≤ asOf := fun e he =>
      le_trans (sorted_le_getLast l.Extensions hextSorted eN hlast e he) hle
    rcases hl : l.Extensions with _ | ⟨d0, rest⟩
    · rw [hl] at hlast; simp at hlast
    · have hd0 : ¬ asOf < d0 :=
        not_lt.mpr (hall d0 (by rw [hl]; exact List.mem_cons_self d0 rest))
      have hwalk : extWalk asOf 1 rest = LifecycleExtensionPhase (1 + rest.length) :=
        extWalk_all_le asOf rest 1 (fun e he => hall e (by rw [hl]; exact List.mem_cons_of_mem d0 he))
      simp [LifecycleDates.Phase, hfs, hm, heol, hl, hd0, hwalk, Nat.add_comm]

/-! ## Platform-transition validation (claim C3) -/

theorem MajorMinor.eq_iff (a b : MajorMinor) :
    a = b ↔ (a.Major = b.Major ∧ a.Minor = b.Minor) := by
  cases a; cases b; simp

theorem MajorMinor.Compare_eq_zero_iff (a b : MajorMinor) :
    a.Compare b = 0 ↔ a = b := by
  unfold MajorMinor.Compare
  split_ifs with h
  · simp [intCmp_eq_zero, MajorMinor.eq_iff]
    intro hEq
    exact absurd hEq h
  · have hEq : a.Major = b.Major := not_not.mp (by simpa using h)
    simp [intCmp_eq_zero, MajorMinor.eq_iff, hEq]

theorem MajorMinor.Compare_pos_iff (a b : MajorMinor) :
    0 < a.Compare b ↔ (b.Major < a.Major ∨ (a.Major = b.Major ∧ b.Minor < a.Minor)) := by
  unfold MajorMinor.Compare
  split_ifs with h
  · simp [intCmp_pos, h]
  · have hEq : a.Major = b.Major := not_not.mp (by simpa using h)
    simp [intCmp_pos, hEq, lt_irrefl]

theorem MajorMinor.Compare_neg_iff (a b : MajorMinor) :
    a.Compare b < 0 ↔ (a.Major < b.Major ∨ (a.Major = b.Major ∧ a.Minor < b.Minor)) := by
  unfold MajorMinor.Compare
  split_ifs with h
  · simp [intCmp_neg, h]
  · have hEq : a.Major = b.Major := not_not.mp (by simpa using h)
    simp [intCmp_neg, hEq, lt_irrefl]

/-- The acceptance condition shared by both validators for distinct
platforms: a strict upgrade within one major, reaching at most the furthest
permitted target. -/
def strictAccepted (fr tp : MajorMinor) : Prop :=
  fr.Compare tp < 0 ∧ fr.Major = tp.Major ∧ tp.Minor ≤ (furthestTarget fr).Minor

theorem furthestTarget_Major (fr : MajorMinor) : (furthestTarget fr).Major = fr.Major := rfl

theorem validateOpenShiftUpdate_none_iff (fr tp : MajorMinor) :
    validateOpenShiftUpdate fr tp = none ↔ strictAccepted fr tp := by
  have hM := furthestTarget_Major fr
  unfold validateOpenShiftUpdate strictAccepted
  split_ifs with h0 h1 h2 h3
  · constructor
    · intro hc; exact absurd hc (by simp)
    · rintro ⟨hlt, _⟩; omega
  · constructor
    · intro hc; exact absurd hc (by simp)
    · rintro ⟨hlt, _⟩; omega
  · constructor
    · intro hc; exact absurd hc (by simp)
    · rintro ⟨_, hmaj, _⟩; exact absurd hmaj h2
  · constructor
    · intro hc; exact absurd hc (by simp)
    · rintro ⟨_, hmaj, hle⟩
      rw [gt_iff_lt, MajorMinor.Compare_pos_iff] at h3
      rcases h3 with h3 | ⟨_, h3⟩ <;> omega
  · have hmaj : fr.Major = tp.Major := not_not.mp h2
    have hneg : fr.Compare tp < 0 := by omega
    rw [gt_iff_lt, MajorMinor.Compare_pos_iff] at h3
    push_neg at h3
    have hmaj' : tp.Major = (furthestTarget fr).Major := by rw [hM]; exact hmaj.symm
    exact ⟨fun _ => ⟨hneg, hmaj, h3.2 hmaj'⟩, fun _ => rfl⟩

theorem V1.legacyValidate_none_iff (fr tp : MajorMinor) :
    V1.validateOpenShiftUpdate fr tp = none ↔ (fr = tp ∨ strictAccepted fr tp) := by
  have hM := furthestTarget_Major fr
  unfold V1.validateOpenShiftUpdate strictAccepted
  split_ifs with h0 h1 h2 h3
  · simp [(MajorMinor.Compare_eq_zero_iff fr tp).mp h0]
  · constructor
    · intro hc; exact absurd hc (by simp)
    · rintro (rfl | ⟨hlt, _⟩)
      · exact absurd ((MajorMinor.Compare_eq_zero_iff fr fr).mpr rfl) h0
      · omega
  · constructor
    · intro hc; exact absurd hc (by simp)
    · rintro (rfl | ⟨_, hmaj, _⟩)
      · exact absurd ((MajorMinor.Compare_eq_zero_iff fr fr).mpr rfl) h0
      · exact absurd hmaj h2
  · constructor
    · intro hc; exact absurd hc (by simp)
    · rintro (rfl | ⟨_, hmaj, hle⟩)
      · exact absurd ((MajorMinor.Compare_eq_zero_iff fr fr).mpr rfl) h0
      · rw [gt_iff_lt, MajorMinor.Compare_pos_iff] at h3
        rcases h3 with h3 | ⟨_, h3⟩ <;> omega
  · have hmaj : fr.Major = tp.Major := not_not.mp h2
    have hneg : fr.Compare tp < 0 := by omega
    rw [gt_iff_lt, MajorMinor.Compare_pos_iff] at h3
    push_neg at h3
    have hmaj' : tp.Major = (furthestTarget fr).Major := by rw [hM]; exact hmaj.symm
    exact ⟨fun _ => Or.inr ⟨hneg, hmaj, h3.2 hmaj'⟩, fun _ => rfl⟩

/-- C3 counterexample: the current planner's `validateOpenShiftUpdate`
(update_plan.go:293-315), the variant used by `PlanOpenShiftUpdate`, rejects
`fromPlatform == toPlatform`, so "platform-transition validation succeeds
when fromPlatform equals toPlatform" fails on it. -/
theorem C3_counterexample :
    validateOpenShiftUpdate ⟨4, 15⟩ ⟨4, 15⟩ =
      some "platform update requires different from version (4.15) and to version (4.15)" := by
  decide

/-- C3 (amended).  The repository carries two platform-transition validators.
The legacy one (update_plan.go:112-134) accepts equal platforms; the current
one (update_plan.go:293-315), used by `PlanOpenShiftUpdate`, rejects them.
Apart from that both behave identically: every downgrade and every
cross-major transition is an error; with an even from-minor the accepted
targets reach `minor + 2`, with an odd from-minor `minor + 1`; and a further
same-major upgrade target yields an error whose message names the furthest
permitted target. -/
theorem C3_validate_characterization (fr tp : MajorMinor) :
    (V1.validateOpenShiftUpdate fr tp = none ↔ (fr = tp ∨ strictAccepted fr tp)) ∧
    (validateOpenShiftUpdate fr tp = none ↔ strictAccepted fr tp) ∧
    (fr.Compare tp < 0 → fr.Major = tp.Major → (furthestTarget fr).Minor < tp.Minor →
      (validateOpenShiftUpdate fr tp =
        some ("furthest supported update from " ++ fr.String ++ " is to " ++
          (furthestTarget fr).String) ∧
       V1.validateOpenShiftUpdate fr tp =
        some ("furthest supported update from " ++ fr.String ++ " is to " ++
          (furthestTarget fr).String))) := by
  refine ⟨V1.legacyValidate_none_iff fr tp,
          validateOpenShiftUpdate_none_iff fr tp, ?_⟩
  intro hlt hmaj hfar
  have h0 : ¬ fr.Compare tp = 0 := by omega
  have h1 : ¬ 0 < fr.Compare tp := by omega
  have h2 : ¬ fr.Major ≠ tp.Major := not_not.mpr hmaj
  have h3 : 0 < tp.Compare (furthestTarget fr) := by
    rw [MajorMinor.Compare_pos_iff]
    exact Or.inr ⟨by simp [furthestTarget, hmaj], by simpa [furthestTarget] using hfar⟩
  constructor
  · unfold validateOpenShiftUpdate
    simp only [furthestTarget] at h3 ⊢
    simp [h0, h1, h2, h3, furthestTarget]
  · unfold V1.validateOpenShiftUpdate
    simp only [furthestTarget] at h3 ⊢
    simp [h0, h1, h2, h3, furthestTarget]

/-! ## Construction-loop invariants (claims C4, C5, C6, C7) -/

/-- A node as it leaves the construction loop as an edge endpoint: bound to
its stream's platform set and lifecycle phase, and (when Pre-GA nodes are
excluded) not Pre-GA. -/
def boundNode (streams : List VersionStream) (asOf : ℤ) (includePreGA : Bool) (n : Node) : Prop :=
  (∃ s, lookupStream streams (NewMajorMinorFromVersion n.Version) = some s ∧
    n.LifecyclePhase = s.LifecycleDates.Phase asOf ∧
    n.SupportedPlatformVersions = s.SupportedPlatformVersions) ∧
  (includePreGA = false → n.LifecyclePhase ≠ LifecyclePhasePreGA)

theorem buildLoop_errors (adm : Version → Node → Node → Bool)
    (streams : List VersionStream) (asOf : ℤ) (incl : Bool) :
    ∀ (l froms : List Node),
      (buildLoop adm streams asOf incl froms l).1 =
        (l.filter (fun n =>
          (lookupStream streams (NewMajorMinorFromVersion n.Version)).isNone)).map
          unknownStreamMsg := by
  intro l
  induction l with
  | nil => intro froms; simp [buildLoop]
  | cons tn rest ih =>
    intro froms
    simp only [buildLoop]
    cases hls : lookupStream streams (NewMajorMinorFromVersion tn.Version) with
    | none => simp [hls, ih froms, List.filter_cons]
    | some stream =>
      dsimp only
      split_ifs with hskip
      · simp [List.filter_cons, hls, ih froms]
      · simp [List.filter_cons, hls, ih]

theorem buildLoop_nodes_key (adm : Version → Node → Node → Bool)
    (streams : List VersionStream) (asOf : ℤ) (incl : Bool) :
    ∀ (l froms : List Node),
      ((buildLoop adm streams asOf incl froms l).2.1).map nodeKey = l.map nodeKey := by
  intro l
  induction l with
  | nil => intro froms; simp [buildLoop]
  | cons tn rest ih =>
    intro froms
    simp only [buildLoop]
    cases hls : lookupStream streams (NewMajorMinorFromVersion tn.Version) with
    | none => simp [ih froms, nodeKey]
    | some stream =>
      dsimp only
      split_ifs with hskip
      · simp [ih froms, nodeKey]
      · simp [ih, nodeKey]

theorem buildLoop_edges (adm : Version → Node → Node → Bool)
    (streams : List VersionStream) (asOf : ℤ) (incl : Bool) :
    ∀ (l froms : List Node),
      (∀ f ∈ froms, boundNode streams asOf incl f) →
      ∀ e ∈ (buildLoop adm streams asOf incl froms l).2.2,
        boundNode streams asOf incl e.1 ∧ boundNode streams asOf incl e.2 ∧
        e.2 ∈ (buildLoop adm streams asOf incl froms l).2.1 ∧
        (e.1 ∈ froms ∨ e.1 ∈ (buildLoop adm streams asOf incl froms l).2.1) ∧
        (∃ mins, adm mins e.1 e.2 = true) := by
  intro l
  induction l with
  | nil => intro froms _ e he; simp [buildLoop] at he
  | cons tn rest ih =>
    intro froms hfroms e he
    simp only [buildLoop] at he ⊢
    cases hls : lookupStream streams (NewMajorMinorFromVersion tn.Version) with
    | none =>
      rw [hls] at he
      dsimp only at he ⊢
      rcases ih froms hfroms e he with ⟨h1, h2, h3, h4, h5⟩
      exact ⟨h1, h2, by simp [h3], by simpa using Or.imp id (fun h => Or.inr h) h4, h5⟩
    | some stream =>
      rw [hls] at he
      dsimp only at he ⊢
      split_ifs at he ⊢ with hskip
      · rcases ih froms hfroms e he with ⟨h1, h2, h3, h4, h5⟩
        exact ⟨h1, h2, by simp [h3], by simpa using Or.imp id (fun h => Or.inr h) h4, h5⟩
      · set tn' : Node :=
          { tn with
            SupportedPlatformVersions := stream.SupportedPlatformVersions,
            LifecyclePhase := stream.LifecycleDates.Phase asOf } with htn'
        have hbound : boundNode streams asOf incl tn' := by
          refine ⟨⟨stream, ?_, rfl, rfl⟩, ?_⟩
          · simpa [htn'] using hls
          · intro hincl
            simp only [htn']
            intro hpre
            exact hskip ⟨by simp [hincl], by simpa using hpre⟩
        rcases List.mem_append.mp he with hinit | hrec
        · unfold initEdgesTo at hinit
          rcases List.mem_map.mp hinit with ⟨f, hf, rfl⟩
          rcases List.mem_filter.mp hf with ⟨hfmem, hadm⟩
          exact ⟨hfroms f hfmem, hbound, by simp,
            Or.inl hfmem, ⟨stream.MinimumUpdateVersion, hadm⟩⟩
        · have hfroms' : ∀ f ∈ froms ++ [tn'], boundNode streams asOf incl f := by
            intro f hf
            rcases List.mem_append.mp hf with hf | hf
            · exact hfroms f hf
            · rw [List.mem_singleton.mp hf]; exact hbound
          rcases ih (froms ++ [tn']) hfroms' e hrec with ⟨h1, h2, h3, h4, h5⟩
          refine ⟨h1, h2, by simp [h3], ?_, h5⟩
          rcases h4 with h4 | h4
          · rcases List.mem_append.mp h4 with h4 | h4
            · exact Or.inl h4
            · exact Or.inr (by simp [List.mem_singleton.mp h4])
          · exact Or.inr (by simp [h4])

/-- Unpack a successful `NewGraph` run. -/
theorem NewGraph_ok (cfg : GraphConfig) (g : Graph) (h : NewGraph cfg = .ok g) :
    (buildLoop edgeAdmitted cfg.Streams cfg.AsOf cfg.IncludePreGA []
      (sortByReleaseDate cfg.Nodes)).1 = [] ∧
    g.nodes = (buildLoop edgeAdmitted cfg.Streams cfg.AsOf cfg.IncludePreGA []
      (sortByReleaseDate cfg.Nodes)).2.1 ∧
    g.wedges = assignEdgeWeights
      (buildLoop edgeAdmitted cfg.Streams cfg.AsOf cfg.IncludePreGA []
        (sortByReleaseDate cfg.Nodes)).2.1
      (buildLoop edgeAdmitted cfg.Streams cfg.AsOf cfg.IncludePreGA []
        (sortByReleaseDate cfg.Nodes)).2.2 := by
  unfold NewGraph at h
  dsimp only at h
  split_ifs at h with he
  injection h with hg
  subst hg
  exact ⟨not_not.mp he, rfl, rfl⟩

/-- A node bound by the legacy pipeline: platform set and lifecycle phase
from its stream (legacy `Phase`), and not Pre-GA when `includePreGA` is
off. -/
def V1.boundNode (streams : List VersionStream) (asOf : ℤ) (includePreGA : Bool)
    (n : Node) : Prop :=
  (∃ s, lookupStream streams (NewMajorMinorFromVersion n.Version) = some s ∧
    n.LifecyclePhase = V1.Phase s.LifecycleDates asOf ∧
    n.SupportedPlatformVersions = s.SupportedPlatformVersions) ∧
  (includePreGA = false → n.LifecyclePhase ≠ V1.LifecyclePhasePreGA)

/-- Edge pairs collected by the legacy walk connect legacy-bound nodes and
pass the legacy filter. -/
theorem V1.legacyBuildLoop_edges (adm : Version → Node → Node → Bool)
    (streams : List VersionStream) (asOf : ℤ) (incl : Bool) :
    ∀ (l froms : List Node),
      (∀ f ∈ froms, boundNode streams asOf incl f) →
      ∀ e ∈ (buildLoop adm streams asOf incl froms l).2.2,
        boundNode streams asOf incl e.1 ∧ boundNode streams asOf incl e.2 ∧
        e.2 ∈ (buildLoop adm streams asOf incl froms l).2.1 ∧
        (e.1 ∈ froms ∨ e.1 ∈ (buildLoop adm streams asOf incl froms l).2.1) ∧
        (∃ mins, adm mins e.1 e.2 = true) := by
  intro l
  induction l with
  | nil => intro froms _ e he; simp [V1.buildLoop] at he
  | cons tn rest ih =>
    intro froms hfroms e he
    simp only [V1.buildLoop] at he ⊢
    cases hls : lookupStream streams (NewMajorMinorFromVersion tn.Version) with
    | none =>
      rw [hls] at he
      dsimp only at he ⊢
      rcases ih froms hfroms e he with ⟨h1, h2, h3, h4, h5⟩
      exact ⟨h1, h2, by simp [h3], by simpa using Or.imp id (fun h => Or.inr h) h4, h5⟩
    | some stream =>
      rw [hls] at he
      dsimp only at he ⊢
      split_ifs at he ⊢ with hskip
      · rcases ih froms hfroms e he with ⟨h1, h2, h3, h4, h5⟩
        exact ⟨h1, h2, by simp [h3], by simpa using Or.imp id (fun h => Or.inr h) h4, h5⟩
      · set tn' : Node :=
          { tn with
            SupportedPlatformVersions := stream.SupportedPlatformVersions,
            LifecyclePhase := V1.Phase stream.LifecycleDates asOf } with htn'
        have hbound : boundNode streams asOf incl tn' := by
          refine ⟨⟨stream, ?_, rfl, rfl⟩, ?_⟩
          · simpa [htn'] using hls
          · intro hincl
            simp only [htn']
            intro hpre
            exact hskip ⟨by simp [hincl], by simpa using hpre⟩
        rcases List.mem_append.mp he with hinit | hrec
        · unfold initEdgesTo at hinit
          rcases List.mem_map.mp hinit with ⟨f, hf, rfl⟩
          rcases List.mem_filter.mp hf with ⟨hfmem, hadm⟩
          exact ⟨hfroms f hfmem, hbound, by simp,
            Or.inl hfmem, ⟨stream.MinimumUpdateVersion, hadm⟩⟩
        · have hfroms' : ∀ f ∈ froms ++ [tn'], boundNode streams asOf incl f := by
            intro f hf
            rcases List.mem_append.mp hf with hf | hf
            · exact hfroms f hf
            · rw [List.mem_singleton.mp hf]; exact hbound
          rcases ih (froms ++ [tn']) hfroms' e hrec with ⟨h1, h2, h3, h4, h5⟩
          refine ⟨h1, h2, by simp [h3], ?_, h5⟩
          rcases h4 with h4 | h4
          · rcases List.mem_append.mp h4 with h4 | h4
            · exact Or.inl h4
            · exact Or.inr (by simp [List.mem_singleton.mp h4])
          · exact Or.inr (by simp [h4])

/-- Unpack a successful legacy `V1.NewGraph` run. -/
theorem V1.legacyNewGraph_ok (cfg : GraphConfig) (g : Graph) (h : V1.NewGraph cfg = .ok g) :
    (buildLoop V1.edgeAdmitted cfg.Streams cfg.AsOf cfg.IncludePreGA []
      (sortByReleaseDate cfg.Nodes)).1 = [] ∧
    g.nodes = (buildLoop V1.edgeAdmitted cfg.Streams cfg.AsOf cfg.IncludePreGA []
      (sortByReleaseDate cfg.Nodes)).2.1 ∧
    g.wedges = V1.assignEdgeWeights
      (buildLoop V1.edgeAdmitted cfg.Streams cfg.AsOf cfg.IncludePreGA []
        (sortByReleaseDate cfg.Nodes)).2.1
      (buildLoop V1.edgeAdmitted cfg.Streams cfg.AsOf cfg.IncludePreGA []
        (sortByReleaseDate cfg.Nodes)).2.2 := by
  unfold V1.NewGraph at h
  dsimp only at h
  split_ifs at h with he
  injection h with hg
  subst hg
  exact ⟨not_not.mp he, rfl, rfl⟩

/-- The weight pass only re-weights the collected edge pairs. -/
theorem mem_assignEdgeWeights (nodes : List Node) (edges : List (Node × Node))
    (e : Node × Node × ℚ) (he : e ∈ assignEdgeWeights nodes edges) :
    (e.1, e.2.1) ∈ edges ∧
    e.2.2 = rankOf (assignRanks LifeCyclePhaseUnknown 0 0 (bestNodes nodes)) e.2.1 := by
  unfold assignEdgeWeights at he
  rcases List.mem_map.mp he with ⟨p, hp, rfl⟩
  exact ⟨hp, rfl⟩

/-- The legacy weight pass also only re-weights the collected edge pairs. -/
theorem mem_V1_assignEdgeWeights (nodes : List Node) (edges : List (Node × Node))
    (e : Node × Node × ℚ) (he : e ∈ V1.assignEdgeWeights nodes edges) :
    (e.1, e.2.1) ∈ edges := by
  unfold V1.assignEdgeWeights at he
  rcases List.mem_flatMap.mp he with ⟨fr, _, hfr⟩
  rcases List.mem_map.mp hfr with ⟨ti, hti, rfl⟩
  have hsnd : ti.2 ∈ sortByLe (fun a b => decide (Node.Compare b a ≤ 0))
      ((edges.filter (fun e => e.1 = fr)).map (fun e => e.2)) := by
    have h2 : ti.2 ∈ (sortByLe (fun a b => decide (Node.Compare b a ≤ 0))
        ((edges.filter (fun e => e.1 = fr)).map (fun e => e.2))).enum.map Prod.snd :=
      List.mem_map_of_mem Prod.snd hti
    rwa [List.enum_map_snd] at h2
  have hsnd' := ((sortByLe_perm _ _).mem_iff).mp hsnd
  rcases List.mem_map.mp hsnd' with ⟨p, hp, hpe⟩
  rcases List.mem_filter.mp hp with ⟨hpm, hpf⟩
  have hpeq : p = (fr, ti.2) := by
    rcases p with ⟨pf, pt⟩
    simp at hpf hpe
    simp [hpf, hpe]
  rw [hpeq] at hpm
  simpa using hpm

/-! ## Shared example data for concrete counterexamples and witnesses -/

/-- A release version without pre-release or build. -/
def mkVer (a b c : ℕ) : Version := { major := a, minor := b, patch := c }

/-- Lifecycle dates that put a stream in Full Support at `asOf = 5`. -/
def datesFull : LifecycleDates := { FullSupport := 0, Maintenance := 10, EndOfLife := 20 }

/-- Lifecycle dates that put a stream in Maintenance at `asOf = 5`. -/
def datesMaint : LifecycleDates := { FullSupport := 0, Maintenance := 3, EndOfLife := 20 }

/-- Lifecycle dates that put a stream past End of Life at `asOf = 5`. -/
def datesEol : LifecycleDates := { FullSupport := 0, Maintenance := 1, EndOfLife := 2 }

/-- Lifecycle dates that put a stream in Pre-GA at `asOf = 5`. -/
def datesPreGA : LifecycleDates := { FullSupport := 8, Maintenance := 10, EndOfLife := 20 }

def mkStream (mm : MajorMinor) (d : LifecycleDates) (spv : List MajorMinor) : VersionStream :=
  { Version := mm, MinimumUpdateVersion := mkVer 0 0 0, LifecycleDates := d,
    SupportedPlatformVersions := spv }

def mkNode (v : Version) (rel : Option String) (date : ℤ) (ref : String) : Node :=
  { Name := "pkg", Version := v, Release := rel, ReleaseDate := date, ImageReference := ref }

/-! ## C4: unknown-stream errors are fatal -/

/-- C4 counterexample: a two-node config whose second node (`1.1.0`) has no
matching stream.  `NewGraph` returns only the error — there is no graph that
"is still usable for all nodes that did bind". -/
theorem C4_counterexample :
    NewGraph
      { Streams := [mkStream ⟨1, 0⟩ datesFull []],
        Nodes := [mkNode (mkVer 1 0 0) none 1 "r1", mkNode (mkVer 1 1 0) none 2 "r2"],
        AsOf := 5, IncludePreGA := false } =
    .error ["node with reference r2 has major.minor version 1.1, but that version is not in an available stream"] :=
  rfl

/-- C4 (amended).  When some nodes have a `major.minor` with no matching
stream, `NewGraph` records one error per such node (in release-date order),
joins them, and returns the joined error with **no** graph: construction
fails instead of yielding a still-usable graph for the nodes that bound. -/
theorem C4_unknown_stream_fatal (cfg : GraphConfig)
    (h : ((sortByReleaseDate cfg.Nodes).filter (fun n =>
      (lookupStream cfg.Streams (NewMajorMinorFromVersion n.Version)).isNone)) ≠ []) :
    NewGraph cfg = .error
      (((sortByReleaseDate cfg.Nodes).filter (fun n =>
        (lookupStream cfg.Streams (NewMajorMinorFromVersion n.Version)).isNone)).map
        unknownStreamMsg) := by
  unfold NewGraph
  dsimp only
  rw [buildLoop_errors]
  rw [if_pos (by simpa using h)]

/-- C4 witness: the amended claim applied to the two-node config. -/
theorem C4_witness :
    NewGraph
      { Streams := [mkStream ⟨1, 0⟩ datesFull []],
        Nodes := [mkNode (mkVer 1 0 0) none 1 "r1", mkNode (mkVer 1 1 0) none 2 "r2"],
        AsOf := 5, IncludePreGA := false } =
    .error
      ((List.filter (fun n =>
          (lookupStream [mkStream ⟨1, 0⟩ datesFull []]
            (NewMajorMinorFromVersion n.Version)).isNone)
        (sortByReleaseDate [mkNode (mkVer 1 0 0) none 1 "r1", mkNode (mkVer 1 1 0) none 2 "r2"])).map
        unknownStreamMsg) :=
  C4_unknown_stream_fatal _ (by decide)

/-! ## C5: Pre-GA nodes stay in the node set -/

def cfg5 : GraphConfig :=
  { Streams := [mkStream ⟨1, 0⟩ datesPreGA [⟨4, 14⟩]],
    Nodes := [mkNode (mkVer 1 0 0) none 1 "r1"],
    AsOf := 5, IncludePreGA := false }

def g5 : Graph := (NewGraph cfg5).toOption.getD ⟨[], []⟩

/-- The Pre-GA node of `cfg5` as it sits in the built graph. -/
def p5 : Node :=
  { mkNode (mkVer 1 0 0) none 1 "r1" with
    LifecyclePhase := LifecyclePhasePreGA, SupportedPlatformVersions := [⟨4, 14⟩] }

/-- C5 counterexample: with `IncludePreGA = false`, a node whose stream is
Pre-GA at the as-of instant is still present in the graph: `NodesMatching`
enumerates it and it belongs to the head set.  It is merely left without
edges — exactly what the claim says does not happen. -/
theorem C5_counterexample :
    cfg5.IncludePreGA = false ∧
    NewGraph cfg5 = .ok g5 ∧
    p5.LifecyclePhase = LifecyclePhasePreGA ∧
    p5 ∈ NodesMatching g5 AllNodes ∧
    p5 ∈ Heads g5 := by
  refine ⟨rfl, rfl, rfl, ?_, ?_⟩ <;> decide

/-- C5 (amended).  With `IncludePreGA = false`, Pre-GA nodes remain in the
graph's node set (they appear in `NodesMatching` enumerations and, being
edgeless, in the head set); what holds is that no edge of the graph touches
a Pre-GA node on either side. -/
theorem C5_pre_ga_edgeless (cfg : GraphConfig) (g : Graph) (h : NewGraph cfg = .ok g)
    (hincl : cfg.IncludePreGA = false) :
    ∀ e ∈ g.wedges, e.1.LifecyclePhase ≠ LifecyclePhasePreGA ∧
      e.2.1.LifecyclePhase ≠ LifecyclePhasePreGA := by
  rcases NewGraph_ok cfg g h with ⟨_, _, hw⟩
  intro e he
  rw [hw] at he
  rcases mem_assignEdgeWeights _ _ _ he with ⟨hpair, _⟩
  rcases buildLoop_edges edgeAdmitted cfg.Streams cfg.AsOf cfg.IncludePreGA _ []
    (by simp) _ hpair with ⟨hb1, hb2, _, _, _⟩
  exact ⟨hb1.2 hincl, hb2.2 hincl⟩

def cfg5w : GraphConfig :=
  { Streams := [mkStream ⟨1, 0⟩ datesFull []],
    Nodes := [mkNode (mkVer 1 0 0) none 1 "r1", mkNode (mkVer 1 0 1) none 2 "r2"],
    AsOf := 5, IncludePreGA := false }

def g5w : Graph := (NewGraph cfg5w).toOption.getD ⟨[], []⟩

/-- The first edge of the `cfg5w` graph. -/
def e5w : Node × Node × ℚ := g5w.wedges.head (by decide)

/-- C5 witness: the amended claim applied to an edge of a Full-Support
two-node graph. -/
theorem C5_witness :
    e5w.1.LifecyclePhase ≠ LifecyclePhasePreGA ∧
    e5w.2.1.LifecyclePhase ≠ LifecyclePhasePreGA :=
  C5_pre_ga_edgeless cfg5w g5w rfl rfl e5w (List.head_mem (by decide))

/-! ## C6: edge endpoints and versions -/

theorem Node.Compare_le_version {u v : Node} (h : Node.Compare u v ≤ 0) :
    Version.compare u.Version v.Version ≤ 0 := by
  unfold Node.Compare at h
  by_cases hv : Version.compare u.Version v.Version = 0
  · omega
  · simpa [hv] using h

def cfg6 : GraphConfig :=
  { Streams := [mkStream ⟨1, 0⟩ datesFull [⟨4, 14⟩]],
    Nodes := [mkNode (mkVer 1 0 0) (some "1") 1 "r1", mkNode (mkVer 1 0 0) (some "2") 2 "r2"],
    AsOf := 5, IncludePreGA := false }

def g6 : Graph := (NewGraph cfg6).toOption.getD ⟨[], []⟩

/-- The two equal-version nodes of `cfg6` as they sit in the built graph. -/
def n61 : Node :=
  { mkNode (mkVer 1 0 0) (some "1") 1 "r1" with
    LifecyclePhase := LifecyclePhaseFullSupport, SupportedPlatformVersions := [⟨4, 14⟩] }

def n62 : Node :=
  { mkNode (mkVer 1 0 0) (some "2") 2 "r2" with
    LifecyclePhase := LifecyclePhaseFullSupport, SupportedPlatformVersions := [⟨4, 14⟩] }

/-- C6 counterexample: two nodes that differ only by build release carry the
same semantic version, and the constructed graph connects them with an edge
(`Node.Compare` ignores the release, and `initializeEdgesTo` only rejects
`Compare > 0`), contradicting "equal versions are never connected". -/
theorem C6_counterexample :
    NewGraph cfg6 = .ok g6 ∧
    edgeMem g6 n61 n62 = true ∧
    n61.Version = n62.Version ∧
    n61.Release ≠ n62.Release := by
  refine ⟨rfl, ?_, rfl, ?_⟩ <;> decide

/-- C6 (amended).  For every edge `u → v` of a graph built by `NewGraph`,
`Node.Compare u v ≤ 0`, hence `u.Version ≤ v.Version` in semver order; the
inequality is not strict: nodes with equal versions (for example differing
only by build release, which `Node.Compare` ignores) can be connected. -/
theorem C6_edge_version_nondecreasing (cfg : GraphConfig) (g : Graph)
    (h : NewGraph cfg = .ok g) :
    ∀ e ∈ g.wedges, Node.Compare e.1 e.2.1 ≤ 0 ∧
      Version.compare e.1.Version e.2.1.Version ≤ 0 := by
  rcases NewGraph_ok cfg g h with ⟨_, _, hw⟩
  intro e he
  rw [hw] at he
  rcases mem_assignEdgeWeights _ _ _ he with ⟨hpair, _⟩
  rcases buildLoop_edges edgeAdmitted cfg.Streams cfg.AsOf cfg.IncludePreGA _ []
    (by simp) _ hpair with ⟨_, _, _, _, mins, hadm⟩
  simp only [edgeAdmitted, Bool.decide_and, Bool.and_eq_true, decide_eq_true_eq] at hadm
  have hle : Node.Compare e.1 e.2.1 ≤ 0 := by
    have := hadm.1
    omega
  exact ⟨hle, Node.Compare_le_version hle⟩

/-- The first edge of the `cfg6` graph. -/
def e6w : Node × Node × ℚ := g6.wedges.head (by decide)

/-- C6 witness: the amended claim applied to an edge of the `cfg6` graph. -/
theorem C6_witness :
    Node.Compare e6w.1 e6w.2.1 ≤ 0 ∧
    Version.compare e6w.1.Version e6w.2.1.Version ≤ 0 :=
  C6_edge_version_nondecreasing cfg6 g6 rfl e6w (List.head_mem (by decide))

/-! ## C7: lifecycle edge admissibility -/

def cfg7 : GraphConfig :=
  { Streams := [mkStream ⟨1, 0⟩ datesFull [⟨4, 14⟩], mkStream ⟨1, 1⟩ datesEol [⟨4, 14⟩]],
    Nodes := [mkNode (mkVer 1 0 0) none 1 "r1", mkNode (mkVer 1 1 0) none 2 "r2"],
    AsOf := 5, IncludePreGA := false }

def g7 : Graph := (NewGraph cfg7).toOption.getD ⟨[], []⟩

def a7 : Node :=
  { mkNode (mkVer 1 0 0) none 1 "r1" with
    LifecyclePhase := LifecyclePhaseFullSupport, SupportedPlatformVersions := [⟨4, 14⟩] }

def b7 : Node :=
  { mkNode (mkVer 1 1 0) none 2 "r2" with
    LifecyclePhase := LifecyclePhaseEndOfLife, SupportedPlatformVersions := [⟨4, 14⟩] }

/-- C7 counterexample: the current `initializeEdgesTo` (graph.go:404-426) has
no lifecycle checks, so the constructed graph contains a cross-minor edge
from a Full Support node into an End-of-Life node — an edge into a strictly
worse lifecycle tier. -/
theorem C7_counterexample :
    NewGraph cfg7 = .ok g7 ∧
    edgeMem g7 a7 b7 = true ∧
    a7.LifecyclePhase < b7.LifecyclePhase ∧
    b7.LifecyclePhase = LifecyclePhaseEndOfLife ∧
    a7.Version.minor ≠ b7.Version.minor := by
  refine ⟨rfl, ?_, ?_, ?_, ?_⟩ <;> decide

/-- C7 (amended).  In a legacy-pipeline run with `includePreGA = false`
(Pre-GA nodes are then left without any edges), the lifecycle admissibility
rules of `initializeEdgesTo` (graph.go:164-195) hold for every edge `u → v`:
both endpoint phases are GA phases (never Pre-GA), `v`'s phase is not
strictly worse than `u`'s — on GA phases the legacy numeric order agrees
with the support order — and no edge crosses minor versions into an
End-of-Life node.  The restriction to `includePreGA = false` is necessary:
legacy `PreGA = -1` sorts below Full Support (graph.go:477-482), so with
`includePreGA = true` the filter admits edges from GA nodes into Pre-GA
nodes (`V1.legacyPreGAEdge`); and the current pipeline drops both lifecycle
filters entirely (`C7_counterexample`). -/
theorem C7_v1_lifecycle_edge_invariants (cfg : GraphConfig) (g : Graph)
    (h : V1.NewGraph cfg = .ok g) (hincl : cfg.IncludePreGA = false) :
    ∀ e ∈ g.wedges,
      e.2.1.LifecyclePhase ≤ e.1.LifecyclePhase ∧
      e.1.LifecyclePhase ≠ V1.LifecyclePhasePreGA ∧
      e.2.1.LifecyclePhase ≠ V1.LifecyclePhasePreGA ∧
      (e.1.Version.minor ≠ e.2.1.Version.minor →
        e.2.1.LifecyclePhase ≠ V1.LifecyclePhaseEndOfLife) := by
  rcases V1.legacyNewGraph_ok cfg g h with ⟨_, _, hw⟩
  intro e he
  rw [hw] at he
  have hpair := mem_V1_assignEdgeWeights _ _ _ he
  rcases V1.legacyBuildLoop_edges V1.edgeAdmitted cfg.Streams cfg.AsOf cfg.IncludePreGA _ []
    (by simp) _ hpair with ⟨hb1, hb2, _, _, mins, hadm⟩
  simp only [V1.edgeAdmitted, Bool.decide_and, Bool.and_eq_true, decide_eq_true_eq] at hadm
  refine ⟨not_lt.mp hadm.2.2.2.1, hb1.2 hincl, hb2.2 hincl, ?_⟩
  intro hminor hpre
  exact hadm.2.2.2.2 ⟨hminor, hpre⟩

def cfg7w : GraphConfig :=
  { Streams := [mkStream ⟨1, 0⟩ datesMaint [⟨4, 14⟩], mkStream ⟨1, 1⟩ datesFull [⟨4, 14⟩]],
    Nodes := [mkNode (mkVer 1 0 0) none 1 "r1", mkNode (mkVer 1 1 0) none 2 "r2"],
    AsOf := 5, IncludePreGA := false }

def g7w : Graph := (V1.NewGraph cfg7w).toOption.getD ⟨[], []⟩

/-- The first edge of the legacy `cfg7w` graph. -/
def e7w : Node × Node × ℚ := g7w.wedges.head (by decide)

/-- A legacy run with `includePreGA = true` and a Pre-GA stream. -/
def cfgPre7 : GraphConfig :=
  { Streams := [mkStream ⟨1, 0⟩ datesFull [⟨4, 14⟩], mkStream ⟨1, 1⟩ datesPreGA [⟨4, 14⟩]],
    Nodes := [mkNode (mkVer 1 0 0) none 1 "r1", mkNode (mkVer 1 1 0) none 2 "r2"],
    AsOf := 5, IncludePreGA := true }

def gPre7 : Graph := (V1.NewGraph cfgPre7).toOption.getD ⟨[], []⟩

/-- The first edge of the legacy `cfgPre7` graph. -/
def ePre7 : Node × Node × ℚ := gPre7.wedges.head (by decide)

/-- With `includePreGA = true` the legacy pipeline admits an edge from a
Full-Support node into a Pre-GA node: legacy `PreGA = -1` sorts below every
GA phase, so `from.LifecyclePhase < to.LifecyclePhase` does not trigger.
This is why the amended C7 invariant is restricted to `includePreGA =
false`. -/
theorem V1.legacyPreGAEdge :
    V1.NewGraph cfgPre7 = .ok gPre7 ∧
    ePre7 ∈ gPre7.wedges ∧
    ePre7.1.LifecyclePhase = V1.LifecyclePhaseFullSupport ∧
    ePre7.2.1.LifecyclePhase = V1.LifecyclePhasePreGA ∧
    ePre7.2.1.LifecyclePhase < ePre7.1.LifecyclePhase :=
  ⟨rfl, List.head_mem (by decide), by decide, by decide, by decide⟩

/-- C7 witness: the amended claim applied to an edge of a legacy-pipeline
graph built with `includePreGA = false`. -/
theorem C7_witness :
    e7w.2.1.LifecyclePhase ≤ e7w.1.LifecyclePhase ∧
    e7w.1.LifecyclePhase ≠ V1.LifecyclePhasePreGA ∧
    e7w.2.1.LifecyclePhase ≠ V1.LifecyclePhasePreGA ∧
    (e7w.1.Version.minor ≠ e7w.2.1.Version.minor →
      e7w.2.1.LifecyclePhase ≠ V1.LifecyclePhaseEndOfLife) :=
  C7_v1_lifecycle_edge_invariants cfg7w g7w rfl rfl e7w (List.head_mem (by decide))

/-- Lifecycle dates with two extension windows, for the C8 witness. -/
def datesExt : LifecycleDates :=
  { FullSupport := 0, Maintenance := 10, Extensions := [20, 30], EndOfLife := 40 }

/-- C8 witness: at `asOf = 25`, between the first and second extension dates,
`Phase` returns the first extension phase (EUS-1). -/
theorem C8_witness : datesExt.Phase 25 = LifecycleExtensionPhase 1 :=
  (C8_lifecycle_phase datesExt 25 (by decide)).2.2.2.2.1 1 (by decide) (by decide)
    (by decide) (by decide) (by decide) (by decide)

/-- C3 witness: at `fromPlatform = 4.15` (odd minor), `toPlatform = 4.17` is
past the furthest permitted target `4.16`, and both validators report it. -/
theorem C3_witness :
    validateOpenShiftUpdate ⟨4, 15⟩ ⟨4, 17⟩ =
      some ("furthest supported update from " ++ (MajorMinor.mk 4 15).String ++ " is to " ++
        (furthestTarget ⟨4, 15⟩).String) ∧
    V1.validateOpenShiftUpdate ⟨4, 15⟩ ⟨4, 17⟩ =
      some ("furthest supported update from " ++ (MajorMinor.mk 4 15).String ++ " is to " ++
        (furthestTarget ⟨4, 15⟩).String) :=
  (C3_validate_characterization ⟨4, 15⟩ ⟨4, 17⟩).2.2 (by decide) (by decide) (by decide)

/-! ## Planner lemmas (claims C2 and C10) -/

/-- Every walk enumerated from `u` starts at `u`. -/
theorem pathsFrom_head (g : Graph) :
    ∀ (fuel : ℕ) (u : Node), ∀ p ∈ pathsFrom g fuel u, p.head? = some u := by
  intro fuel
  induction fuel with
  | zero =>
    intro u p hp
    simp only [pathsFrom, List.mem_singleton] at hp
    simp [hp]
  | succ n ih =>
    intro u p hp
    simp only [pathsFrom, List.mem_cons, List.mem_flatMap, List.mem_map] at hp
    rcases hp with rfl | ⟨v, _, q, _, rfl⟩
    · rfl
    · rfl

/-- `Paths().Between` returns a path that starts at `u`. -/
theorem between_head (g : Graph) (u v : Node) (p : List Node) (w : ℚ)
    (h : between g u v = some (p, w)) : p.head? = some u := by
  unfold between at h
  dsimp only at h
  rcases hmin : (((pathsFrom g g.nodes.length u).filter
      (fun p => p.getLast? = some v)).argmin (fun p => pathWeight g p)) with _ | q
  · rw [hmin] at h; exact absurd h (by simp)
  · rw [hmin] at h
    have h2 : ((q, pathWeight g q) : List Node × ℚ) = (p, w) := Option.some.inj h
    have hq := List.argmin_mem hmin
    have hq' := (List.mem_filter.mp hq).1
    have h3 := pathsFrom_head g g.nodes.length u q hq'
    have hqp : q = p := congrArg Prod.fst h2
    rw [← hqp]
    exact h3

/-- Every candidate update path starts at the from node. -/
theorem updatePaths_head (g : Graph) (fr : Node) (toSet : List MajorMinor) :
    ∀ pw ∈ updatePaths g fr toSet, pw.1.head? = some fr := by
  intro pw hpw
  unfold updatePaths at hpw
  have hpw' := ((sortByLe_perm _ _).mem_iff).mp hpw
  rcases List.mem_filterMap.mp hpw' with ⟨tn, _, hbt⟩
  exact between_head g fr tn pw.1 pw.2 (by rcases pw with ⟨p, w⟩; exact hbt)

/-- A node supported on a platform is functional on it. -/
theorem functional_of_supported (g : Graph) (n : Node) (p : MajorMinor)
    (h : setHas n.SupportedPlatformVersions p = true) :
    functionalOnPlatforms [p] g n = true := by
  unfold functionalOnPlatforms setIsSuperset setUnion
  unfold setHas at h
  have hm : p ∈ n.SupportedPlatformVersions := by simpa using h
  simp [hm]

/-- The candidate loop never panics when every candidate path starts at a
node that is functional on the from-platform. -/
theorem tryUpdatePaths_ne_none (g : Graph) (fr : Node)
    (fromSet travSet toSet : List MajorMinor)
    (hfr : functionalOnPlatforms fromSet g fr = true) :
    ∀ l : List (List Node × ℚ), (∀ pw ∈ l, pw.1.head? = some fr) →
      tryUpdatePaths g fr fromSet travSet toSet l ≠ none := by
  intro l
  induction l with
  | nil => intro _; simp [tryUpdatePaths]
  | cons pw rest ih =>
    intro hheads
    have hh := hheads pw (List.mem_cons_self pw rest)
    rcases hp : pw.1 with _ | ⟨h0, tail⟩
    · rw [hp] at hh; simp at hh
    · rw [hp] at hh
      simp only [List.head?_cons, Option.some.injEq] at hh
      rw [hh] at hp
      simp only [tryUpdatePaths, hp]
      rw [List.takeWhile_cons_of_pos (by simpa using hfr)]
      have hrest := fun pw h => hheads pw (List.mem_cons_of_mem _ h)
      rcases hlast : (fr :: tail.takeWhile (fun n => functionalOnPlatforms fromSet g n)).getLast? with
        _ | span
      · rw [List.getLast?_eq_none_iff] at hlast
        cases hlast
      · dsimp only
        split_ifs <;> first | exact ih hrest | simp

/-- C10.  In per-node platform planning, once the from node has passed the
check that it is supported on the source platform, every candidate path
begins at the from node and the pre-update walk admits at least that node
(supported implies functional), so the span-node extraction
`pnu.Before[len(pnu.Before)-1]` never indexes an empty slice: given a
non-empty traversed-platform list, `platformNodeUpdatePathFrom` never
reaches either of its panic points. -/
theorem C10_no_panic (g : Graph) (fr : Node) (tp : List MajorMinor) (h : tp ≠ []) :
    platformNodeUpdatePathFrom g fr tp ≠ none := by
  rcases tp with _ | ⟨p0, rest⟩
  · exact absurd rfl h
  · unfold platformNodeUpdatePathFrom
    dsimp only
    split_ifs with hsup
    all_goals first
      | exact tryUpdatePaths_ne_none g fr [p0] (p0 :: rest) _
          (functional_of_supported g fr p0 (by simpa using hsup))
          _ (updatePaths_head g fr _)
      | simp

/-- C10 witness: a concrete per-node plan on the `cfg6` graph, with the from
node supported on the requested platform. -/
theorem C10_witness : platformNodeUpdatePathFrom g6 n61 [⟨4, 14⟩] ≠ none :=
  C10_no_panic g6 n61 [⟨4, 14⟩] (by decide)

/-! ## The three-phase decomposition (claim C2) -/

theorem takeWhile_append_drop {α : Type} (l : List α) (f : α → Bool) :
    l.takeWhile f ++ l.drop (l.takeWhile f).length = l := by
  rcases List.takeWhile_prefix (l := l) (p := f) with ⟨t, ht⟩
  have h2 := congrArg (List.drop (l.takeWhile f).length) ht
  rw [List.drop_left] at h2
  rw [← h2]
  exact ht

/-- Every successful, error-free result of the candidate loop is the claimed
three-phase decomposition of one of the candidate paths. -/
theorem tryUpdatePaths_spec (g : Graph) (fr : Node)
    (fromSet travSet toSet : List MajorMinor) :
    ∀ (l : List (List Node × ℚ)) (pnu : PlatformNodeUpdate),
      tryUpdatePaths g fr fromSet travSet toSet l = some pnu →
      pnu.Error = none →
      pnu.From = fr ∧
      ∃ pw ∈ l,
        pnu.Before = pw.1.takeWhile (fun n => functionalOnPlatforms fromSet g n) ∧
        (∃ span, pnu.Before.getLast? = some span ∧
          functionalOnPlatforms travSet g span = true ∧
          (∀ n ∈ pnu.After, n = span ∨ functionalOnPlatforms toSet g n = true)) ∧
        pnu.Before ++ pnu.After.drop 1 = pw.1 := by
  intro l
  induction l with
  | nil =>
    intro pnu h hne
    simp only [tryUpdatePaths, Option.some.injEq] at h
    rw [← h] at hne
    simp at hne
  | cons pw rest ih =>
    intro pnu h hne
    simp only [tryUpdatePaths] at h
    cases hlast : (pw.1.takeWhile (fun n => functionalOnPlatforms fromSet g n)).getLast? with
    | none => rw [hlast] at h; exact absurd h (by simp)
    | some span =>
      rw [hlast] at h
      dsimp only at h
      have hbne : pw.1.takeWhile (fun n => functionalOnPlatforms fromSet g n) ≠ [] := by
        intro hnil
        rw [hnil] at hlast
        simp at hlast
      have hne0 : (pw.1.takeWhile (fun n => functionalOnPlatforms fromSet g n)).length ≠ 0 := by
        simpa [List.length_eq_zero] using hbne
      rw [if_pos hne0] at h
      split_ifs at h with h1 h2 h3
      · -- the pre-update walk consumed the whole path
        have hpnu := (Option.some.inj h).symm
        have hfun : functionalOnPlatforms travSet g span = true := by simpa using h1
        refine ⟨by rw [hpnu], pw, List.mem_cons_self pw rest, by rw [hpnu], ?_, ?_⟩
        · refine ⟨span, by rw [hpnu]; exact hlast, hfun, ?_⟩
          rw [hpnu]
          simp
        · rw [hpnu]
          simp only [List.drop_nil, List.append_nil]
          exact (List.takeWhile_prefix _).eq_of_length (by simpa using h2)
      · rcases ih pnu h hne with ⟨hFrom, pw', hpw', hrest⟩
        exact ⟨hFrom, pw', List.mem_cons_of_mem _ hpw', hrest⟩
      · -- span node plus a full post-update walk
        have hpnu := (Option.some.inj h).symm
        have hfun : functionalOnPlatforms travSet g span = true := by simpa using h1
        refine ⟨by rw [hpnu], pw, List.mem_cons_self pw rest, by rw [hpnu], ?_, ?_⟩
        · refine ⟨span, by rw [hpnu]; exact hlast, hfun, ?_⟩
          rw [hpnu]
          intro n hn
          simp only [List.cons_append, List.nil_append, List.mem_cons] at hn
          rcases hn with rfl | hn
          · exact Or.inl rfl
          · exact Or.inr (List.mem_takeWhile_imp hn)
        · rw [hpnu]
          simp only [List.cons_append, List.nil_append, List.drop_succ_cons, List.drop_zero]
          -- the length check forces the post-walk to consume the whole tail
          have hlen3 : (pw.1.takeWhile (fun n => functionalOnPlatforms fromSet g n)).length +
              ([span] ++ (pw.1.drop
                (pw.1.takeWhile (fun n => functionalOnPlatforms fromSet g n)).length).takeWhile
                  (fun n => functionalOnPlatforms toSet g n)).length - 1 = pw.1.length := by
            simpa using h3
          have htwle : (pw.1.takeWhile (fun n => functionalOnPlatforms fromSet g n)).length ≤
              pw.1.length :=
            List.Sublist.length_le (List.takeWhile_sublist _)
          have hfull : ((pw.1.drop
              (pw.1.takeWhile (fun n => functionalOnPlatforms fromSet g n)).length).takeWhile
                (fun n => functionalOnPlatforms toSet g n)).length =
              (pw.1.drop
                (pw.1.takeWhile (fun n => functionalOnPlatforms fromSet g n)).length).length := by
            have htw2le : ((pw.1.drop
                (pw.1.takeWhile (fun n => functionalOnPlatforms fromSet g n)).length).takeWhile
                  (fun n => functionalOnPlatforms toSet g n)).length ≤
                (pw.1.drop
                  (pw.1.takeWhile (fun n => functionalOnPlatforms fromSet g n)).length).length :=
              List.Sublist.length_le (List.takeWhile_sublist _)
            have hlendrop : (pw.1.drop
                (pw.1.takeWhile (fun n => functionalOnPlatforms fromSet g n)).length).length =
                pw.1.length -
                  (pw.1.takeWhile (fun n => functionalOnPlatforms fromSet g n)).length := by
              simp [List.length_drop]
            simp only [List.length_append, List.length_cons, List.length_nil] at hlen3
            omega
          have heq := (List.takeWhile_prefix
            (p := fun n => functionalOnPlatforms toSet g n)).eq_of_length hfull
          rw [heq]
          exact takeWhile_append_drop pw.1 _
      · rcases ih pnu h hne with ⟨hFrom, pw', hpw', hrest⟩
        exact ⟨hFrom, pw', List.mem_cons_of_mem _ hpw', hrest⟩

/-- A node functional on a superset of platforms is functional on the
subset. -/
theorem functional_mono (g : Graph) (n : Node) (s t : List MajorMinor)
    (hsub : ∀ x ∈ t, x ∈ s) (h : functionalOnPlatforms s g n = true) :
    functionalOnPlatforms t g n = true := by
  unfold functionalOnPlatforms setIsSuperset at h ⊢
  rw [List.all_eq_true] at h ⊢
  intro x hx
  exact h x (hsub x hx)

/-- An error-free per-node plan comes from the candidate loop over the
shortest update paths towards the last traversed platform. -/
theorem platformNodeUpdatePathFrom_spec (g : Graph) (fr : Node)
    (p0 : MajorMinor) (rps : List MajorMinor) (pnu : PlatformNodeUpdate)
    (h : platformNodeUpdatePathFrom g fr (p0 :: rps) = some pnu)
    (hne : pnu.Error = none) :
    pnu.From = fr ∧
    ∃ pw ∈ updatePaths g fr [(p0 :: rps).getLast (by simp)],
      pnu.Before = pw.1.takeWhile (fun n => functionalOnPlatforms [p0] g n) ∧
      (∃ span, pnu.Before.getLast? = some span ∧
        functionalOnPlatforms (p0 :: rps) g span = true ∧
        (∀ n ∈ pnu.After, n = span ∨
          functionalOnPlatforms [(p0 :: rps).getLast (by simp)] g n = true)) ∧
      pnu.Before ++ pnu.After.drop 1 = pw.1 := by
  unfold platformNodeUpdatePathFrom at h
  dsimp only at h
  split_ifs at h with hsup
  all_goals first
    | exact tryUpdatePaths_spec g fr [p0] (p0 :: rps) _ _ pnu h hne
    | (exfalso
       have hp := (Option.some.inj h).symm
       rw [hp] at hne
       simp at hne)

/-- Each entry of the per-node plan list is the plan of one of the requested
from nodes. -/
theorem planNodeUpdates_mem (g : Graph) (tp : List MajorMinor) :
    ∀ (froms : List Node) (pnus : List PlatformNodeUpdate),
      planNodeUpdates g tp froms = some pnus →
      ∀ pnu ∈ pnus, ∃ fr ∈ froms, platformNodeUpdatePathFrom g fr tp = some pnu := by
  intro froms
  induction froms with
  | nil =>
    intro pnus h pnu hm
    simp only [planNodeUpdates, Option.some.injEq] at h
    rw [← h] at hm
    simp at hm
  | cons fr rest ih =>
    intro pnus h pnu hm
    simp only [planNodeUpdates] at h
    cases h1 : platformNodeUpdatePathFrom g fr tp with
    | none => rw [h1] at h; exact absurd h (by simp)
    | some p1 =>
      rw [h1] at h
      cases h2 : planNodeUpdates g tp rest with
      | none => rw [h2] at h; exact absurd h (by simp)
      | some ps =>
        rw [h2] at h
        dsimp only at h
        have := Option.some.inj h
        rw [← this] at hm
        rcases List.mem_cons.mp hm with rfl | hm'
        · exact ⟨fr, List.mem_cons_self fr rest, h1⟩
        · rcases ih ps h2 pnu hm' with ⟨fr', hfr', hp'⟩
          exact ⟨fr', List.mem_cons_of_mem _ hfr', hp'⟩

/-- Unpack a successful `PlanOpenShiftUpdate`. -/
theorem PlanOpenShiftUpdate_ok (g : Graph) (froms : List Node)
    (fromPlatform toPlatform : MajorMinor) (pu : PlatformUpdate)
    (h : PlanOpenShiftUpdate g froms fromPlatform toPlatform = .ok pu) :
    validateOpenShiftUpdate fromPlatform toPlatform = none ∧
    planNodeUpdates g (traversedRange fromPlatform toPlatform) froms = some pu.NodeUpdates := by
  unfold PlanOpenShiftUpdate at h
  cases hv : validateOpenShiftUpdate fromPlatform toPlatform with
  | some e => rw [hv] at h; exact absurd h (by simp)
  | none =>
    rw [hv] at h
    dsimp only at h
    cases hp : planNodeUpdates g (traversedRange fromPlatform toPlatform) froms with
    | none => rw [hp] at h; exact absurd h (by simp)
    | some pnus =>
      rw [hp] at h
      dsimp only at h
      have := Except.ok.inj h
      rw [← this]
      exact ⟨rfl, rfl⟩

theorem range'_getLast? : ∀ (n s : ℕ), (List.range' s (n + 1)).getLast? = some (s + n) := by
  intro n
  induction n with
  | zero => intro s; simp [List.range']
  | succ n ih =>
    intro s
    rw [List.range'_succ]
    have h1 : List.range' (s + 1) (n + 1) = (s + 1) :: List.range' (s + 2) n := by
      rw [List.range'_succ]
    rw [h1, List.getLast?_cons_cons, ← h1, ih (s + 1)]
    congr 1
    omega

theorem traversedRange_head? (fromPlatform toPlatform : MajorMinor)
    (h : fromPlatform.Minor ≤ toPlatform.Minor) :
    (traversedRange fromPlatform toPlatform).head? = some fromPlatform := by
  unfold traversedRange
  have hn : toPlatform.Minor + 1 - fromPlatform.Minor = (toPlatform.Minor - fromPlatform.Minor) + 1 := by
    omega
  rw [hn, List.range'_succ]
  rfl

theorem traversedRange_getLast? (fromPlatform toPlatform : MajorMinor)
    (hmaj : fromPlatform.Major = toPlatform.Major)
    (h : fromPlatform.Minor ≤ toPlatform.Minor) :
    (traversedRange fromPlatform toPlatform).getLast? = some toPlatform := by
  unfold traversedRange
  have hn : toPlatform.Minor + 1 - fromPlatform.Minor = (toPlatform.Minor - fromPlatform.Minor) + 1 := by
    omega
  rw [hn, List.getLast?_map, range'_getLast?]
  have : fromPlatform.Minor + (toPlatform.Minor - fromPlatform.Minor) = toPlatform.Minor := by
    omega
  rw [this]
  rcases toPlatform with ⟨tM, tm⟩
  simp only [Option.map_some]
  simp at hmaj
  simp [hmaj]

/-- C2.  For every per-node plan returned by `PlanOpenShiftUpdate` with no
attached error: every node of `Before` is functional (supported or
requires-update) on the source platform; the span node — the last node of
`Before` — is functional on every platform in the inclusive traversed range
from source to destination; every node of `After` is functional on the
destination platform; and `Before ++ After[1:]` equals the candidate update
path that was decomposed. -/
theorem C2_plan_decomposition (g : Graph) (froms : List Node)
    (fromPlatform toPlatform : MajorMinor) (pu : PlatformUpdate)
    (h : PlanOpenShiftUpdate g froms fromPlatform toPlatform = .ok pu)
    (pnu : PlatformNodeUpdate) (hmem : pnu ∈ pu.NodeUpdates) (hne : pnu.Error = none) :
    (∀ n ∈ pnu.Before, functionalOnPlatforms [fromPlatform] g n = true) ∧
    (∃ span, pnu.Before.getLast? = some span ∧
      functionalOnPlatforms (traversedRange fromPlatform toPlatform) g span = true) ∧
    (∀ n ∈ pnu.After, functionalOnPlatforms [toPlatform] g n = true) ∧
    (∃ pw ∈ updatePaths g pnu.From [toPlatform], pnu.Before ++ pnu.After.drop 1 = pw.1) := by
  rcases PlanOpenShiftUpdate_ok g froms fromPlatform toPlatform pu h with ⟨hv, hp⟩
  have hacc := (validateOpenShiftUpdate_none_iff fromPlatform toPlatform).mp hv
  rcases hacc with ⟨hcmp, hmaj, _⟩
  have hminor : fromPlatform.Minor < toPlatform.Minor := by
    rw [MajorMinor.Compare_neg_iff] at hcmp
    rcases hcmp with hc | ⟨_, hc⟩
    · omega
    · exact hc
  have hminle : fromPlatform.Minor ≤ toPlatform.Minor := le_of_lt hminor
  rcases htr : traversedRange fromPlatform toPlatform with _ | ⟨p0, rps⟩
  · have := traversedRange_head? fromPlatform toPlatform hminle
    rw [htr] at this
    simp at this
  · have hhead := traversedRange_head? fromPlatform toPlatform hminle
    rw [htr] at hhead
    simp only [List.head?_cons, Option.some.injEq] at hhead
    have hlastP := traversedRange_getLast? fromPlatform toPlatform hmaj hminle
    rw [htr] at hlastP
    have hlastP' : (p0 :: rps).getLast (by simp) = toPlatform := by
      have := List.getLast?_eq_getLast (p0 :: rps) (by simp)
      rw [this] at hlastP
      exact Option.some.inj hlastP
    rw [htr] at hp
    rcases planNodeUpdates_mem g (p0 :: rps) froms pu.NodeUpdates hp pnu hmem with
      ⟨fr, _, hplan⟩
    rcases platformNodeUpdatePathFrom_spec g fr p0 rps pnu hplan hne with
      ⟨hFrom, pw, hpw, hBefore, ⟨span, hspan, hspanfun, hAfter⟩, hconcat⟩
    have htoPmem : toPlatform ∈ (p0 :: rps) := by
      have := List.mem_of_mem_getLast? (l := p0 :: rps) (a := toPlatform)
      apply this
      rw [hlastP]
      simp
    refine ⟨?_, ⟨span, hspan, hspanfun⟩, ?_, ?_⟩
    · intro n hn
      rw [hBefore] at hn
      have := List.mem_takeWhile_imp hn
      rw [hhead] at this
      exact this
    · intro n hn
      rcases hAfter n hn with rfl | hfn
      · refine functional_mono g n (p0 :: rps) [toPlatform] ?_ hspanfun
        intro x hx
        rw [List.mem_singleton.mp hx]
        exact htoPmem
      · rw [hlastP'] at hfn
        exact hfn
    · rw [hFrom]
      rw [hlastP'] at hpw
      exact ⟨pw, hpw, hconcat⟩

/-! ### A concrete plan for the C2 witness -/

def cfg2w : GraphConfig :=
  { Streams := [mkStream ⟨1, 0⟩ datesFull [⟨4, 14⟩, ⟨4, 15⟩]],
    Nodes := [mkNode (mkVer 1 0 0) none 1 "r1"],
    AsOf := 5, IncludePreGA := false }

def g2w : Graph := (NewGraph cfg2w).toOption.getD ⟨[], []⟩

def a2w : Node :=
  { mkNode (mkVer 1 0 0) none 1 "r1" with
    LifecyclePhase := LifecyclePhaseFullSupport,
    SupportedPlatformVersions := [⟨4, 14⟩, ⟨4, 15⟩] }

def pu2w : PlatformUpdate :=
  match PlanOpenShiftUpdate g2w [a2w] ⟨4, 14⟩ ⟨4, 15⟩ with
  | .ok p => p
  | .error _ => { Name := "", From := ⟨0, 0⟩, To := ⟨0, 0⟩, NodeUpdates := [] }

def pnu2w : PlatformNodeUpdate :=
  pu2w.NodeUpdates.headD { From := a2w }

/-- C2 witness: the decomposition properties on a concrete error-free
per-node plan for a platform update from 4.14 to 4.15. -/
theorem C2_witness :
    (∀ n ∈ pnu2w.Before, functionalOnPlatforms [⟨4, 14⟩] g2w n = true) ∧
    (∃ span, pnu2w.Before.getLast? = some span ∧
      functionalOnPlatforms (traversedRange ⟨4, 14⟩ ⟨4, 15⟩) g2w span = true) ∧
    (∀ n ∈ pnu2w.After, functionalOnPlatforms [⟨4, 15⟩] g2w n = true) ∧
    (∃ pw ∈ updatePaths g2w pnu2w.From [⟨4, 15⟩], pnu2w.Before ++ pnu2w.After.drop 1 = pw.1) :=
  C2_plan_decomposition g2w [a2w] ⟨4, 14⟩ ⟨4, 15⟩ pu2w rfl pnu2w
    (by rw [(rfl : pu2w.NodeUpdates = [pnu2w])]; exact List.mem_singleton.mpr rfl) rfl

/-! ## C1: tier-crossing path weights

The rank walk of `assignEdgeWeights` restarts each tier's rank at the rank
sum of the tier just finished.  We show that every node of a worse lifecycle
tier outranks the **total** rank mass of any single better tier, so a path
that crosses into a worse tier outweighs every simple path confined to one
better tier.  The stronger reading of the spec — crossing costs more than any
path through **several** better tiers — fails as soon as three tiers exist,
because the gap only accounts for the immediately preceding tier. -/

/-- The rank table computed for a graph's nodes by `assignEdgeWeights`. -/
def graphRanks (g : Graph) : List (Node × ℚ) :=
  assignRanks LifeCyclePhaseUnknown 0 0 (bestNodes g.nodes)

/-- The total rank mass of the lifecycle tier `φ`. -/
def tierSum (φ : ℤ) (ranks : List (Node × ℚ)) : ℚ :=
  ((ranks.filter (fun e => e.1.LifecyclePhase = φ)).map (fun e => e.2)).sum

theorem delta_pos : 0 < delta := by norm_num [delta]

theorem tierSum_cons (φ : ℤ) (e : Node × ℚ) (R : List (Node × ℚ)) :
    tierSum φ (e :: R) = (if e.1.LifecyclePhase = φ then e.2 else 0) + tierSum φ R := by
  by_cases h : e.1.LifecyclePhase = φ <;> simp [tierSum, List.filter_cons, h]

theorem tierSum_eq_zero (φ : ℤ) (R : List (Node × ℚ))
    (h : ∀ e ∈ R, e.1.LifecyclePhase ≠ φ) : tierSum φ R = 0 := by
  have hf : R.filter (fun e => decide (e.1.LifecyclePhase = φ)) = [] := by
    rw [List.filter_eq_nil_iff]
    intro e he
    simpa using h e he
  simp [tierSum, hf]

theorem assignRanks_map_fst :
    ∀ (l : List Node) (cur : ℤ) (rank next : ℚ),
      (assignRanks cur rank next l).map Prod.fst = l := by
  intro l
  induction l with
  | nil => intro cur rank next; simp [assignRanks]
  | cons tn rest ih =>
    intro cur rank next
    simp only [assignRanks]
    split_ifs <;> simp [ih]

theorem assignRanks_mem_fst {l : List Node} {cur : ℤ} {rank next : ℚ}
    {e : Node × ℚ} (he : e ∈ assignRanks cur rank next l) : e.1 ∈ l := by
  have := List.mem_map_of_mem Prod.fst he
  rwa [assignRanks_map_fst] at this

theorem assignRanks_pos :
    ∀ (l : List Node) (cur : ℤ) (rank next : ℚ), 0 ≤ rank → 0 ≤ next →
      ∀ e ∈ assignRanks cur rank next l, 0 < e.2 := by
  intro l
  induction l with
  | nil => intro cur rank next _ _ e he; simp [assignRanks] at he
  | cons tn rest ih =>
    intro cur rank next hr hn e he
    simp only [assignRanks] at he
    split_ifs at he with hcur
    · rcases List.mem_cons.mp he with rfl | he'
      · have := delta_pos
        simp only
        linarith
      · exact ih tn.LifecyclePhase (next + delta) (next + delta)
          (by linarith [delta_pos]) (by linarith [delta_pos]) e he'
    · rcases List.mem_cons.mp he with rfl | he'
      · have := delta_pos
        simp only
        linarith
      · exact ih cur (rank + delta) (next + (rank + delta))
          (by linarith [delta_pos]) (by linarith [delta_pos]) e he'

/-- The tier-gap invariant of the rank walk.  Walking a phase-sorted node
list from a state where `rank ≤ next`, with `c` the rank mass of tier `φ`
emitted so far (`c = 0` before the tier, `c = next` inside it, `c ≤ rank`
once it is passed), every emitted node of a phase worse than `φ` outranks
`c` plus the tier-`φ` mass still to be emitted. -/
theorem assignRanks_master (φ : ℤ) :
    ∀ (l : List Node) (cur : ℤ) (rank next c : ℚ),
      List.Pairwise (fun a b : Node => a.LifecyclePhase ≤ b.LifecyclePhase) l →
      (∀ n ∈ l, cur ≤ n.LifecyclePhase) →
      0 ≤ rank → rank ≤ next →
      ((cur < φ ∧ c = 0) ∨ (cur = φ ∧ c = next) ∨ (φ < cur ∧ c ≤ rank)) →
      ∀ e ∈ assignRanks cur rank next l, φ < e.1.LifecyclePhase →
        c + tierSum φ (assignRanks cur rank next l) < e.2 := by
  intro l
  induction l with
  | nil => intro cur rank next c _ _ _ _ _ e he; simp [assignRanks] at he
  | cons tn rest ih =>
    intro cur rank next c hs hc hr hrn hD e he hph
    have hnext : 0 ≤ next := le_trans hr hrn
    rcases List.pairwise_cons.mp hs with ⟨htn, hrest⟩
    simp only [assignRanks] at he ⊢
    split_ifs at he ⊢ with hcur
    · -- phase change: cur ≠ tn.LifecyclePhase
      rw [tierSum_cons]
      rcases List.mem_cons.mp he with rfl | he'
      · -- e is the tier-opening node itself
        simp only at hph ⊢
        have hnφ : ¬ tn.LifecyclePhase = φ := by intro hh; rw [hh] at hph; exact lt_irrefl φ hph
        rw [if_neg hnφ, tierSum_eq_zero]
        · rcases hD with ⟨_, rfl⟩ | ⟨_, rfl⟩ | ⟨_, hcr⟩
          · linarith [delta_pos]
          · linarith [delta_pos]
          · linarith [delta_pos]
        · intro x hx
          have hx1 := assignRanks_mem_fst hx
          have := htn x.1 hx1
          intro hxφ
          rw [hxφ] at this
          exact absurd (lt_of_lt_of_le hph this) (lt_irrefl φ)
      · -- e comes from the rest of the walk
        have hc0 : cur < φ → c = 0 := by
          intro _
          rcases hD with ⟨_, h0⟩ | ⟨hceq, _⟩ | ⟨hgt, _⟩
          · exact h0
          · omega
          · omega
        rcases lt_trichotomy tn.LifecyclePhase φ with hlt | heq | hgt
        · -- the new tier is still strictly better than φ
          have hcφ : cur < φ := by
            have := hc tn (List.mem_cons_self tn rest)
            omega
          have hbound := ih tn.LifecyclePhase (next + delta) (next + delta) 0 hrest htn
            (by linarith [delta_pos]) le_rfl (Or.inl ⟨hlt, rfl⟩) e he' hph
          have hnφ : ¬ tn.LifecyclePhase = φ := by omega
          rw [if_neg hnφ, hc0 hcφ]
          linarith
        · -- the new tier is exactly φ (so none of it was emitted before)
          have hcφ : cur < φ := by
            have := hc tn (List.mem_cons_self tn rest)
            omega
          have hbound := ih tn.LifecyclePhase (next + delta) (next + delta) (next + delta)
            hrest htn (by linarith [delta_pos]) le_rfl (Or.inr (Or.inl ⟨heq, rfl⟩)) e he' hph
          rw [if_pos heq, hc0 hcφ]
          dsimp only
          linarith
        · -- the new tier is already worse than φ
          have hcle : c ≤ next := by
            rcases hD with ⟨_, h0⟩ | ⟨_, h0⟩ | ⟨_, hcr⟩
            · rw [h0]; exact hnext
            · rw [h0]
            · exact le_trans hcr hrn
          have hbound := ih tn.LifecyclePhase (next + delta) (next + delta) c hrest htn
            (by linarith [delta_pos]) le_rfl
            (Or.inr (Or.inr ⟨hgt, by linarith [delta_pos]⟩)) e he' hph
          have hnφ : ¬ tn.LifecyclePhase = φ := by omega
          rw [if_neg hnφ]
          linarith
    · -- same phase: cur = tn.LifecyclePhase
      have hceq : cur = tn.LifecyclePhase := not_not.mp (by simpa using hcur)
      rw [tierSum_cons]
      rcases List.mem_cons.mp he with rfl | he'
      · -- e is the node just emitted
        simp only at hph ⊢
        have hgt : φ < cur := by omega
        have hnφ : ¬ tn.LifecyclePhase = φ := by omega
        have hcr : c ≤ rank := by
          rcases hD with ⟨h1, _⟩ | ⟨h1, _⟩ | ⟨_, hcr⟩
          · omega
          · omega
          · exact hcr
        rw [if_neg hnφ, tierSum_eq_zero]
        · linarith [delta_pos]
        · intro x hx
          have hx1 := assignRanks_mem_fst hx
          have := htn x.1 hx1
          intro hxφ
          rw [hxφ] at this
          rw [← hceq] at this
          omega
      · -- e comes from the rest of the walk
        rcases hD with ⟨h1, h0⟩ | ⟨h1, h0⟩ | ⟨h1, hcr⟩
        · -- still before tier φ
          have hbound := ih cur (rank + delta) (next + (rank + delta)) 0 hrest
            (by rw [hceq]; exact htn) (by linarith [delta_pos]) (by linarith)
            (Or.inl ⟨h1, rfl⟩) e he' hph
          have hnφ : ¬ tn.LifecyclePhase = φ := by omega
          rw [if_neg hnφ, h0]
          linarith
        · -- inside tier φ
          have hbound := ih cur (rank + delta) (next + (rank + delta)) (next + (rank + delta))
            hrest (by rw [hceq]; exact htn) (by linarith [delta_pos]) (by linarith)
            (Or.inr (Or.inl ⟨h1, rfl⟩)) e he' hph
          have hφtn : tn.LifecyclePhase = φ := by omega
          rw [if_pos hφtn, h0]
          dsimp only
          linarith
        · -- past tier φ
          have hbound := ih cur (rank + delta) (next + (rank + delta)) c hrest
            (by rw [hceq]; exact htn) (by linarith [delta_pos]) (by linarith)
            (Or.inr (Or.inr ⟨h1, by linarith [delta_pos]⟩)) e he' hph
          have hnφ : ¬ tn.LifecyclePhase = φ := by omega
          rw [if_neg hnφ]
          linarith

/-- From the initial state of the walk: every node of a phase worse than `φ`
outranks the entire rank mass of tier `φ`. -/
theorem assignRanks_tier_bound (φ : ℤ) (l : List Node)
    (hs : List.Pairwise (fun a b : Node => a.LifecyclePhase ≤ b.LifecyclePhase) l) :
    ∀ e ∈ assignRanks LifeCyclePhaseUnknown 0 0 l, φ < e.1.LifecyclePhase →
      tierSum φ (assignRanks LifeCyclePhaseUnknown 0 0 l) < e.2 := by
  cases l with
  | nil => intro e he; simp [assignRanks] at he
  | cons tn rest =>
    have hstep : assignRanks LifeCyclePhaseUnknown 0 0 (tn :: rest)
        = (tn, delta) :: assignRanks tn.LifecyclePhase delta delta rest := by
      simp only [assignRanks]
      split_ifs with h
      · norm_num
      · rw [not_ne_iff.mp h]
        norm_num
    rcases List.pairwise_cons.mp hs with ⟨htn, hrest⟩
    intro e he hph
    rw [hstep] at he ⊢
    rw [tierSum_cons]
    rcases List.mem_cons.mp he with rfl | he'
    · simp only at hph ⊢
      have hnφ : ¬ tn.LifecyclePhase = φ := by omega
      rw [if_neg hnφ, tierSum_eq_zero]
      · linarith [delta_pos]
      · intro x hx
        have := htn x.1 (assignRanks_mem_fst hx)
        omega
    · rcases lt_trichotomy tn.LifecyclePhase φ with hlt | heq | hgt
      · have hbound := assignRanks_master φ rest tn.LifecyclePhase delta delta 0 hrest htn
          (le_of_lt delta_pos) le_rfl (Or.inl ⟨hlt, rfl⟩) e he' hph
        have hnφ : ¬ tn.LifecyclePhase = φ := by omega
        rw [if_neg hnφ]
        linarith
      · have hbound := assignRanks_master φ rest tn.LifecyclePhase delta delta delta hrest htn
          (le_of_lt delta_pos) le_rfl (Or.inr (Or.inl ⟨heq, rfl⟩)) e he' hph
        rw [if_pos heq]
        dsimp only
        linarith
      · have hbound := assignRanks_master φ rest tn.LifecyclePhase delta delta 0 hrest htn
          (le_of_lt delta_pos) le_rfl (Or.inr (Or.inr ⟨hgt, le_of_lt delta_pos⟩)) e he' hph
        have hnφ : ¬ tn.LifecyclePhase = φ := by omega
        rw [if_neg hnφ]
        linarith

/-- The best-first sort is ascending in lifecycle phase. -/
theorem bestNodes_phase_pairwise (nodes : List Node) :
    List.Pairwise (fun a b : Node => a.LifecyclePhase ≤ b.LifecyclePhase) (bestNodes nodes) := by
  refine sortByLe_pairwise _ _ ?_ ?_ ?_ nodes
  · intro a b hle
    have hle' : bestNodeCmp a b ≤ 0 := of_decide_eq_true hle
    unfold bestNodeCmp LifecyclePhase.Compare at hle'
    by_cases hv : intCmp a.LifecyclePhase b.LifecyclePhase ≠ 0
    · rw [if_pos hv] at hle'
      exact intCmp_le_zero.mp hle'
    · exact le_of_eq (intCmp_eq_zero.mp (not_not.mp hv))
  · intro a b hle
    have hle' : ¬ bestNodeCmp a b ≤ 0 := by
      intro hh
      rw [decide_eq_true hh] at hle
      exact Bool.true_eq_false.mp hle
    unfold bestNodeCmp LifecyclePhase.Compare at hle'
    by_cases hv : intCmp a.LifecyclePhase b.LifecyclePhase ≠ 0
    · rw [if_pos hv] at hle'
      exact le_of_lt (intCmp_pos.mp (lt_of_not_le hle'))
    · exact le_of_eq (intCmp_eq_zero.mp (not_not.mp hv)).symm
  · intro a b c hab hbc
    exact le_trans hab hbc

/-- A node present in the rank table is paired there with its looked-up
rank. -/
theorem rankOf_mem (ranks : List (Node × ℚ)) (n : Node)
    (h : n ∈ ranks.map Prod.fst) : (n, rankOf ranks n) ∈ ranks := by
  unfold rankOf
  split
  · rename_i e heq
    have hmem := List.mem_of_find?_eq_some heq
    have hpred : e.1 = n := by simpa using List.find?_some heq
    have he : (n, e.2) = e := by
      cases e
      simp_all
    rw [he]
    exact hmem
  · rename_i heq
    rcases List.mem_map.mp h with ⟨e, hmem, rfl⟩
    have := List.find?_eq_none.mp heq e hmem
    simp at this

/-- All ranks of a graph's rank table are positive. -/
theorem graphRanks_pos (g : Graph) : ∀ e ∈ graphRanks g, 0 < e.2 :=
  assignRanks_pos (bestNodes g.nodes) LifeCyclePhaseUnknown 0 0 le_rfl le_rfl

/-- Looked-up ranks are nonnegative. -/
theorem rankOf_nonneg (g : Graph) (n : Node) : 0 ≤ rankOf (graphRanks g) n := by
  unfold rankOf
  split
  · rename_i e heq
    exact le_of_lt (graphRanks_pos g e (List.mem_of_find?_eq_some heq))
  · exact le_rfl

/-- In a constructed graph, the weight of a present edge is the rank of its
target. -/
theorem weightOf_ok (cfg : GraphConfig) (g : Graph) (h : NewGraph cfg = .ok g)
    (u v : Node) (he : edgeMem g u v = true) :
    weightOf g u v = rankOf (graphRanks g) v := by
  rcases NewGraph_ok cfg g h with ⟨_, hnodes, hwedges⟩
  rcases List.any_eq_true.mp he with ⟨e, hemem, hpred⟩
  unfold weightOf
  split
  · rename_i e0 heq
    have hmem := List.mem_of_find?_eq_some heq
    have hpred0 : e0.1 = u ∧ e0.2.1 = v := by simpa using List.find?_some heq
    rw [hwedges, ← hnodes] at hmem
    rcases mem_assignEdgeWeights g.nodes _ e0 hmem with ⟨_, hrank⟩
    rw [hrank, hpred0.2]
    rfl
  · rename_i heq
    exact absurd hpred (List.find?_eq_none.mp heq e hemem)

/-- Every non-head node of a graph path is the target of some edge. -/
theorem isPath_tail_edge (g : Graph) :
    ∀ p : List Node, isPath g p → ∀ v ∈ p.tail, ∃ u, edgeMem g u v = true := by
  intro p
  induction p with
  | nil => intro _ v hv; simp at hv
  | cons u rest ih =>
    intro hp v hv
    simp only [List.tail_cons] at hv
    cases rest with
    | nil => simp at hv
    | cons w rest' =>
      rcases List.chain'_cons.mp hp with ⟨huw, hrest⟩
      rcases List.mem_cons.mp hv with rfl | hv'
      · exact ⟨u, huw⟩
      · exact ih hrest v (by simpa using hv')

/-- Edge targets of a constructed graph are nodes of the graph. -/
theorem edge_target_mem (cfg : GraphConfig) (g : Graph) (h : NewGraph cfg = .ok g)
    (u v : Node) (he : edgeMem g u v = true) : v ∈ g.nodes := by
  rcases NewGraph_ok cfg g h with ⟨_, hnodes, hwedges⟩
  rcases List.any_eq_true.mp he with ⟨e, hemem, hpred⟩
  have hpred' : e.1 = u ∧ e.2.1 = v := by simpa using hpred
  rw [hwedges] at hemem
  rcases mem_assignEdgeWeights _ _ e hemem with ⟨hpair, _⟩
  have := buildLoop_edges edgeAdmitted cfg.Streams cfg.AsOf cfg.IncludePreGA
    (sortByReleaseDate cfg.Nodes) [] (by intro f hf; simp at hf) (e.1, e.2.1) hpair
  rw [hnodes]
  rw [← hpred'.2]
  exact this.2.2.1

/-- The weight of a path in a constructed graph is the rank sum of its
non-head nodes. -/
theorem pathWeight_eq_sum (cfg : GraphConfig) (g : Graph) (h : NewGraph cfg = .ok g) :
    ∀ p : List Node, isPath g p →
      pathWeight g p = (p.tail.map (fun v => rankOf (graphRanks g) v)).sum := by
  intro p
  induction p with
  | nil => intro _; simp [pathWeight]
  | cons u rest ih =>
    intro hp
    cases rest with
    | nil => simp [pathWeight]
    | cons v rest' =>
      rcases List.chain'_cons.mp hp with ⟨huv, hrest⟩
      have hr := ih hrest
      simp only [pathWeight, List.tail_cons, List.map_cons, List.sum_cons]
      rw [weightOf_ok cfg g h u v huv, hr]
      simp

/-- The rank sum over distinct nodes of tier `φ` is at most the tier's total
rank mass. -/
theorem sum_rankOf_le (φ : ℤ) :
    ∀ (ranks : List (Node × ℚ)) (vs : List Node),
      (∀ e ∈ ranks, 0 ≤ e.2) → vs.Nodup →
      (∀ v ∈ vs, v.LifecyclePhase = φ) →
      (vs.map (fun v => rankOf ranks v)).sum ≤ tierSum φ ranks := by
  intro ranks
  induction ranks with
  | nil =>
    intro vs _ _ _
    have hz : ∀ v ∈ vs, rankOf ([] : List (Node × ℚ)) v = 0 := by
      intro v _
      simp [rankOf]
    rw [List.map_congr_left hz]
    simp [tierSum]
  | cons e R ih =>
    intro vs hpos hnd hphase
    have hpos' : ∀ x ∈ R, 0 ≤ x.2 := fun x hx => hpos x (List.mem_cons_of_mem e hx)
    have he2 : 0 ≤ e.2 := hpos e (List.mem_cons_self e R)
    rw [tierSum_cons]
    by_cases hmem : e.1 ∈ vs
    · have hperm : vs.Perm (e.1 :: vs.erase e.1) := List.perm_cons_erase hmem
      have hsum : (vs.map (fun v => rankOf (e :: R) v)).sum
          = rankOf (e :: R) e.1 + ((vs.erase e.1).map (fun v => rankOf (e :: R) v)).sum := by
        have := (hperm.map (fun v => rankOf (e :: R) v)).sum_eq
        simpa using this
      have h1 : rankOf (e :: R) e.1 = e.2 := by
        unfold rankOf
        rw [List.find?_cons_of_pos _ (by simp)]
      have h2 : ((vs.erase e.1).map (fun v => rankOf (e :: R) v)).sum
          = ((vs.erase e.1).map (fun v => rankOf R v)).sum := by
        refine congrArg List.sum (List.map_congr_left ?_)
        intro v hv
        have hne : v ≠ e.1 := ((List.Nodup.mem_erase_iff hnd).mp hv).1
        unfold rankOf
        rw [List.find?_cons_of_neg _ (by simp [Ne.symm hne])]
      have hIH := ih (vs.erase e.1) hpos' (hnd.erase e.1)
        (fun v hv => hphase v (((List.Nodup.mem_erase_iff hnd).mp hv).2))
      have hif : (if e.1.LifecyclePhase = φ then e.2 else 0) = e.2 := by
        rw [if_pos (hphase e.1 hmem)]
      rw [hsum, h1, h2, hif]
      linarith
    · have h2 : (vs.map (fun v => rankOf (e :: R) v)).sum
          = (vs.map (fun v => rankOf R v)).sum := by
        refine congrArg List.sum (List.map_congr_left ?_)
        intro v hv
        have hne : v ≠ e.1 := by
          intro hh
          rw [hh] at hv
          exact hmem hv
        unfold rankOf
        rw [List.find?_cons_of_neg _ (by simp [Ne.symm hne])]
      have hIH := ih vs hpos' hnd hphase
      have hif : 0 ≤ (if e.1.LifecyclePhase = φ then e.2 else 0) := by
        split <;> simp [he2]
      rw [h2]
      linarith

/-- C1 (amended).  In a graph built by `NewGraph`, take a pair `(u, w)` with
`u`'s lifecycle phase strictly better (numerically smaller) than `w`'s and a
path from `u` passing through `w`.  Its total weight strictly exceeds that of
every simple path confined to `u`'s tier, regardless of either path's
length.  (The claim's broader reading — such a crossing outweighs any path
through **all** better tiers — is refuted by `C1_counterexample`.) -/
theorem C1_tier_weight (cfg : GraphConfig) (g : Graph) (h : NewGraph cfg = .ok g)
    (u w : Node) (p q : List Node)
    (hp : isPath g (u :: p)) (hwp : w ∈ p)
    (hq : isPath g q) (hqn : q.Nodup)
    (hqt : ∀ n ∈ q, n.LifecyclePhase = u.LifecyclePhase)
    (huw : u.LifecyclePhase < w.LifecyclePhase) :
    pathWeight g q < pathWeight g (u :: p) := by
  have hq_le : pathWeight g q ≤ tierSum u.LifecyclePhase (graphRanks g) := by
    rw [pathWeight_eq_sum cfg g h q hq]
    refine sum_rankOf_le u.LifecyclePhase (graphRanks g) q.tail
      (fun e he => le_of_lt (graphRanks_pos g e he)) ?_ ?_
    · exact hqn.sublist (List.tail_sublist q)
    · intro v hv
      exact hqt v (List.mem_of_mem_tail hv)
  have hw_nodes : w ∈ g.nodes := by
    obtain ⟨x, hx⟩ := isPath_tail_edge g (u :: p) hp w (by simpa using hwp)
    exact edge_target_mem cfg g h x w hx
  have hkeys : w ∈ (graphRanks g).map Prod.fst := by
    unfold graphRanks
    rw [assignRanks_map_fst]
    exact ((sortByLe_perm _ g.nodes).mem_iff).mpr hw_nodes
  have hbound : tierSum u.LifecyclePhase (graphRanks g) < rankOf (graphRanks g) w := by
    have := assignRanks_tier_bound u.LifecyclePhase (bestNodes g.nodes)
      (bestNodes_phase_pairwise g.nodes) (w, rankOf (graphRanks g) w)
      (rankOf_mem (graphRanks g) w hkeys) huw
    exact this
  have hp_ge : rankOf (graphRanks g) w ≤ pathWeight g (u :: p) := by
    rw [pathWeight_eq_sum cfg g h (u :: p) hp]
    refine List.single_le_sum ?_ _ ?_
    · intro x hx
      rcases List.mem_map.mp hx with ⟨v, _, rfl⟩
      exact rankOf_nonneg g v
    · simpa using List.mem_map_of_mem (fun v => rankOf (graphRanks g) v) hwp
  calc pathWeight g q ≤ tierSum u.LifecyclePhase (graphRanks g) := hq_le
    _ < rankOf (graphRanks g) w := hbound
    _ ≤ pathWeight g (u :: p) := hp_ge

/-- Three streams in three distinct tiers (Full Support, Maintenance, End of
Life at `asOf = 5`), with three Full-Support nodes. -/
def cfgC1 : GraphConfig :=
  { Streams := [mkStream ⟨1, 0⟩ datesFull [], mkStream ⟨1, 1⟩ datesMaint [],
                mkStream ⟨1, 2⟩ datesEol []],
    Nodes := [mkNode (mkVer 1 0 0) none 1 "r1", mkNode (mkVer 1 0 1) none 2 "r2",
              mkNode (mkVer 1 0 2) none 3 "r3", mkNode (mkVer 1 1 0) none 4 "r4",
              mkNode (mkVer 1 2 0) none 5 "r5"],
    AsOf := 5, IncludePreGA := false }

def gC1 : Graph := (NewGraph cfgC1).toOption.getD ⟨[], []⟩

def a1C1 : Node :=
  { mkNode (mkVer 1 0 0) none 1 "r1" with LifecyclePhase := LifecyclePhaseFullSupport }

def a2C1 : Node :=
  { mkNode (mkVer 1 0 1) none 2 "r2" with LifecyclePhase := LifecyclePhaseFullSupport }

def a3C1 : Node :=
  { mkNode (mkVer 1 0 2) none 3 "r3" with LifecyclePhase := LifecyclePhaseFullSupport }

def bC1 : Node :=
  { mkNode (mkVer 1 1 0) none 4 "r4" with LifecyclePhase := LifecyclePhaseMaintenance }

def cC1 : Node :=
  { mkNode (mkVer 1 2 0) none 5 "r5" with LifecyclePhase := LifecyclePhaseEndOfLife }

/-- C1 counterexample: with three tiers the claimed bound fails in its
"stays entirely within better tiers, regardless of path length" reading.
In the graph of `cfgC1` the ranks are `1.0.2 ↦ 0.01`, `1.0.1 ↦ 0.02`,
`1.0.0 ↦ 0.03` (Full Support), `1.1.0 ↦ 0.07` (Maintenance: `0.06 + δ`, the
gap covering only the Full tier's sum), `1.2.0 ↦ 0.08` (End of Life:
`0.07 + δ`, the Maintenance tier's sum plus `δ`).  The edge `1.1.0 → 1.2.0`
crosses from Maintenance into End of Life with total weight `0.08`, yet the
path `1.0.0 → 1.0.1 → 1.0.2 → 1.1.0`, which never leaves the two better
tiers, weighs `0.02 + 0.01 + 0.07 = 0.10 > 0.08`. -/
theorem C1_counterexample :
    NewGraph cfgC1 = .ok gC1 ∧
    bC1.LifecyclePhase < cC1.LifecyclePhase ∧
    isPath gC1 [bC1, cC1] ∧ [bC1, cC1].Nodup ∧
    isPath gC1 [a1C1, a2C1, a3C1, bC1] ∧ [a1C1, a2C1, a3C1, bC1].Nodup ∧
    (∀ n ∈ [a1C1, a2C1, a3C1, bC1], n.LifecyclePhase < cC1.LifecyclePhase) ∧
    pathWeight gC1 [bC1, cC1] < pathWeight gC1 [a1C1, a2C1, a3C1, bC1] := by
  refine ⟨rfl, by decide, ?_, by decide, ?_, by decide, by decide, ?_⟩
  · exact List.chain'_cons.mpr ⟨rfl, List.chain'_singleton _⟩
  · exact List.chain'_cons.mpr ⟨rfl, List.chain'_cons.mpr ⟨rfl,
      List.chain'_cons.mpr ⟨rfl, List.chain'_singleton _⟩⟩⟩
  · have h1 : pathWeight gC1 [bC1, cC1]
        = ((((0 + delta) + ((0 + delta) + delta)) + (((0 + delta) + delta) + delta))
            + delta + delta) + 0 := rfl
    have h2 : pathWeight gC1 [a1C1, a2C1, a3C1, bC1]
        = ((0 + delta) + delta) +
          ((0 + delta) +
            ((((0 + delta) + ((0 + delta) + delta)) + (((0 + delta) + delta) + delta))
              + delta + 0)) := rfl
    rw [h1, h2]
    norm_num [delta]

/-- C1 witness: the amended bound on the graph of `cfgC1`, for the pair
`(1.1.0, 1.2.0)` (Maintenance strictly better than End of Life), the crossing
path `1.1.0 → 1.2.0` and the Maintenance-tier path `[1.1.0]`. -/
theorem C1_witness :
    pathWeight gC1 [bC1] < pathWeight gC1 [bC1, cC1] :=
  C1_tier_weight cfgC1 gC1 rfl bC1 cC1 [cC1] [bC1]
    (List.chain'_cons.mpr ⟨rfl, List.chain'_singleton _⟩)
    (by simp)
    (List.chain'_singleton _)
    (by simp)
    (by intro n hn; rw [List.mem_singleton.mp hn])
    (by decide)

end Cincinnati

